import Mathlib

/-
Shallow embedding of src/node/Peer.cpp (ZeroTier One, 2016 line): the per-peer
path manager.  Pure data is modelled with Lean structures; the C++ methods
become state-passing functions returning the updated `PeerState` together with
the list of emitted packets (`Event`s).  `uint64_t` timestamps and scores are
Nats, with wrapping subtraction made explicit where the source subtracts
unsigned values.  External collaborators (Path liveness, the node policy
callback, the cluster query, the PRNG, identity serialization) enter as
parameters in `Env` or as fields of `Path`, exactly at the points where
Peer.cpp calls out to them.
-/

namespace ZeroTier

/-- Width bound of the C `uint64_t` type used for timestamps and path scores. -/
def U64 : Nat := 2 ^ 64

/-- Wrapping unsigned 64-bit subtraction: the value of `a - b` computed on
`uint64_t` operands (each first reduced mod 2^64). -/
def u64sub (a b : Nat) : Nat := (a % U64 + (U64 - b % U64)) % U64

/-- Modelled from the spec: `MAX_PATHS = 16` (Constants.hpp is not among the
sources; only the name `ZT_MAX_PEER_NETWORK_PATHS` appears in Peer.cpp). -/
def ZT_MAX_PEER_NETWORK_PATHS : Nat := 16

/-- Modelled from the spec: `PATH_EXPIRATION` is about ten minutes; the exact
value is irrelevant to every claim, which is parametric in it. -/
def ZT_PEER_PATH_EXPIRATION : Nat := 600000

/-- Modelled from the spec: `DIRECT_PATH_PUSH_INTERVAL` is about two minutes. -/
def ZT_DIRECT_PATH_PUSH_INTERVAL : Nat := 120000

/-- Modelled from the spec: `MAX_PER_SCOPE_AND_FAMILY = 8`. -/
def ZT_PUSH_DIRECT_PATHS_MAX_PER_SCOPE_AND_FAMILY : Nat := 8

/-- Modelled from the spec: `MULTICAST_LIKE_EXPIRE` is about ten minutes. -/
def ZT_MULTICAST_LIKE_EXPIRE : Nat := 600000

/-- Modelled from the spec: the `CLUSTER_REDIRECT` record flag is `0x02`
(the constant lives in Packet.hpp, which is not among the sources). -/
def ZT_PUSH_DIRECT_PATHS_FLAG_CLUSTER_REDIRECT : Nat := 2

/-- Address-family tag for IPv4.  Only equality tests against these tags occur
in Peer.cpp, so the numeric values are arbitrary; 4 and 6 are used. -/
def AF_INET : Nat := 4

/-- Address-family tag for IPv6. -/
def AF_INET6 : Nat := 6

/-- An IP endpoint: family tag, raw address bytes and port, mirroring the
parts of `InetAddress` that Peer.cpp reads (`ss_family`, `rawIpData`,
`port`); `operator==` is structural equality. -/
structure InetAddress where
  family : Nat
  ip : List Nat
  port : Nat
deriving DecidableEq, Repr

instance : Inhabited InetAddress := ⟨⟨0, [], 0⟩⟩

/-- The slice of the external `Path` object that Peer.cpp uses: the two
endpoint addresses, the liveness predicate `alive(now)` and the result of
`send` (sends are recorded as events; `sendOk` is the boolean `send` returns). -/
structure Path where
  localAddress : InetAddress
  address : InetAddress
  aliveF : Nat → Bool
  sendOk : Bool

instance : Inhabited Path := ⟨⟨default, default, fun _ => false, false⟩⟩

/-- One entry of the `_paths` array: a (possibly null) shared reference to a
`Path` plus the slot's `lastReceive` stamp.  `path = none` models a zeroed
`SharedPtr<Path>`. -/
structure PathSlot where
  path : Option Path
  lastReceive : Nat

instance : Inhabited PathSlot := ⟨⟨none, 0⟩⟩

/-- Remote address carried by a slot (dereference of `_paths[p].path->address()`;
slots in the populated prefix always hold a reference). -/
def PathSlot.addr (sl : PathSlot) : InetAddress := (sl.path.getD default).address

/-- Packet verbs appearing in Peer.cpp. -/
inductive Verb where
  | HELLO
  | ERROR
  | OK
  | ECHO
  | RENDEZVOUS
  | FRAME
  | EXT_FRAME
  | MULTICAST_FRAME
  | PUSH_DIRECT_PATHS
  | otherVerb : Nat → Verb
deriving DecidableEq, Repr

/-- One `append` call on an outgoing packet buffer.  Endianness is external
(Buffer.hpp), so appended items are kept as tagged fields rather than bytes. -/
inductive Field where
  | u8 : Nat → Field
  | u16 : Nat → Field
  | u64 : Nat → Field
  | raw : List Nat → Field
  | ztAddr : Nat → Field
  | inet : InetAddress → Field
deriving DecidableEq, Repr

/-- An outgoing packet: destination and source ZeroTier addresses, verb, and
the sequence of appended payload fields. -/
structure Packet where
  dest : Nat
  src : Nat
  verb : Verb
  fields : List Field
deriving DecidableEq, Repr

/-- Observable side effects of the path manager. -/
inductive Event where
  | pathSend : InetAddress → Packet → Event
  | putPacket : InetAddress → InetAddress → Packet → Event
  | pushDirectPathsSent : InetAddress → List (List Field) → Event
  | announceMulticastGroups : Event
deriving DecidableEq, Repr

/-- The peer state mutated by Peer.cpp: identity address, session key,
negotiated remote version, the bounded path array with its live count, and
the activity timestamps the claims mention. -/
structure PeerState where
  idAddress : Nat
  key : List Nat
  vProto : Nat
  vMajor : Nat
  vMinor : Nat
  vRevision : Nat
  paths : List PathSlot
  numPaths : Nat
  lastReceive : Nat
  lastUnicastFrame : Nat
  lastMulticastFrame : Nat
  lastAnnouncedTo : Nat
  lastDirectPathPushSent : Nat

/-- Slot access, `_paths[p]` (out-of-prefix reads yield the default slot). -/
def PeerState.slot (s : PeerState) (p : Nat) : PathSlot := s.paths.getD p default

/-- Remote address of slot `p`. -/
def PeerState.slotAddr (s : PeerState) (p : Nat) : InetAddress := (s.slot p).addr

/-- The external world as seen from one call into Peer.cpp: results of the
callbacks the code makes, plus node-identity material used to build packets. -/
structure Env where
  myAddress : Nat
  protoVersion : Nat
  verMajor : Nat
  verMinor : Nat
  verRevision : Nat
  idSerial : List Nat
  worldId : Nat
  worldTimestamp : Nat
  clusterEnabled : Bool
  findBetterEndpoint : Option InetAddress
  shouldUsePath : Bool
  directPaths : List InetAddress
  symPredictions : List InetAddress
  prng : Nat → Nat
  ipScope : InetAddress → Nat

/-- The `bestp / best` scan pattern shared verbatim by `sendDirect`,
`getBestPath`, `doPingAndKeepalive` and `getBestActiveAddresses`:
`best` starts at 0, `bestp` at -1, and each considered index `p` with
`score p >= best` replaces the current champion (so the last tied index
wins).  `scanBest cond score n` processes indices `0..n-1` in order and
returns `(bestp, best)`. -/
def scanBest (cond : Nat → Bool) (score : Nat → Nat) : Nat → Option Nat × Nat
  | 0 => (none, 0)
  | n + 1 =>
    if cond n then
      if score n ≥ (scanBest cond score n).2 then (some n, score n)
      else scanBest cond score n
    else scanBest cond score n

/-- The `worstSlot / worstScore` scan of the same-family eviction pass in
`Peer::received`: `worstScore` starts at the u64 sentinel `0xffff...ff`,
`worstSlot` at -1, and each index `p` satisfying `cond` with
`score p < worstScore` becomes the champion. -/
def scanWorst (cond : Nat → Bool) (score : Nat → Nat) : Nat → Option Nat × Nat
  | 0 => (none, U64 - 1)
  | n + 1 =>
    if cond n then
      if score n < (scanWorst cond score n).2 then (some n, score n)
      else scanWorst cond score n
    else scanWorst cond score n

/-- The any-family fallback pass of the eviction code: `slot` starts at
`ZT_MAX_PEER_NETWORK_PATHS - 1`, `worstScore` keeps the sentinel value it
still has after the failed same-family pass, and the scan uses strict `<`. -/
def fallbackScan (score : Nat → Nat) : Nat → Nat × Nat
  | 0 => (ZT_MAX_PEER_NETWORK_PATHS - 1, U64 - 1)
  | n + 1 =>
    if score n < (fallbackScan score n).2 then (n, score n)
    else fallbackScan score n

theorem u64sub_eq (a b : Nat) (hb : b ≤ a) (ha : a < U64) : u64sub a b = a - b := by
  have hbU : b < U64 := lt_of_le_of_lt hb ha
  unfold u64sub
  rw [Nat.mod_eq_of_lt hbU, Nat.mod_eq_of_lt ha]
  have h2 : a + (U64 - b) = U64 + (a - b) := by omega
  rw [h2, Nat.add_mod_left]
  exact Nat.mod_eq_of_lt (by omega)

/-- Complete characterization of `scanBest`: either no index satisfied the
condition, or the result is the last condition-satisfying maximizer. -/
theorem scanBest_spec (cond : Nat → Bool) (score : Nat → Nat) (n : Nat) :
    ((scanBest cond score n).1 = none ∧ (scanBest cond score n).2 = 0 ∧
      ∀ q, q < n → cond q = false) ∨
    (∃ b, (scanBest cond score n).1 = some b ∧ b < n ∧ cond b = true ∧
      (scanBest cond score n).2 = score b ∧
      (∀ q, q < n → cond q = true → score q ≤ score b) ∧
      (∀ q, b < q → q < n → cond q = true → score q < score b)) := by
  induction n with
  | zero => exact Or.inl ⟨rfl, rfl, fun q hq => absurd hq (Nat.not_lt_zero q)⟩
  | succ n ih =>
    by_cases hc : cond n = true
    · by_cases hs : score n ≥ (scanBest cond score n).2
      · have hres : scanBest cond score (n + 1) = (some n, score n) := by
          simp [scanBest, hc, hs]
        refine Or.inr ⟨n, by rw [hres], Nat.lt_succ_self n, hc, by rw [hres], ?_, ?_⟩
        · intro q hq hcq
          rcases Nat.lt_succ_iff_lt_or_eq.mp hq with h | h
          · rcases ih with ⟨_, h2, h3⟩ | ⟨b, _, _, _, h2, hmax, _⟩
            · exact absurd hcq (by simp [h3 q h])
            · exact le_trans (le_trans (hmax q h hcq) (le_of_eq h2.symm)) hs
          · subst h; exact Nat.le_refl _
        · intro q hq1 hq2 _; omega
      · have hres : scanBest cond score (n + 1) = scanBest cond score n := by
          simp [scanBest, hc, hs]
        push_neg at hs
        rcases ih with ⟨_, h2, _⟩ | ⟨b, h1, hb, hcb, h2, hmax, hlast⟩
        · rw [h2] at hs; exact absurd hs (Nat.not_lt_zero _)
        · rw [h2] at hs
          refine Or.inr ⟨b, by rw [hres]; exact h1, Nat.lt_succ_of_lt hb, hcb,
            by rw [hres]; exact h2, ?_, ?_⟩
          · intro q hq hcq
            rcases Nat.lt_succ_iff_lt_or_eq.mp hq with h | h
            · exact hmax q h hcq
            · subst h; exact le_of_lt hs
          · intro q hq1 hq2 hcq
            rcases Nat.lt_succ_iff_lt_or_eq.mp hq2 with h | h
            · exact hlast q hq1 h hcq
            · subst h; exact hs
    · have hres : scanBest cond score (n + 1) = scanBest cond score n := by
        simp [scanBest, hc]
      have hcf : cond n = false := by
        cases h : cond n
        · rfl
        · exact absurd h hc
      rcases ih with ⟨h1, h2, h3⟩ | ⟨b, h1, hb, hcb, h2, hmax, hlast⟩
      · refine Or.inl ⟨by rw [hres]; exact h1, by rw [hres]; exact h2, ?_⟩
        intro q hq
        rcases Nat.lt_succ_iff_lt_or_eq.mp hq with h | h
        · exact h3 q h
        · subst h; exact hcf
      · refine Or.inr ⟨b, by rw [hres]; exact h1, Nat.lt_succ_of_lt hb, hcb,
          by rw [hres]; exact h2, ?_, ?_⟩
        · intro q hq hcq
          rcases Nat.lt_succ_iff_lt_or_eq.mp hq with h | h
          · exact hmax q h hcq
          · subst h; exact absurd hcq (by simp [hcf])
        · intro q hq1 hq2 hcq
          rcases Nat.lt_succ_iff_lt_or_eq.mp hq2 with h | h
          · exact hlast q hq1 h hcq
          · subst h; exact absurd hcq (by simp [hcf])

/-- Complete characterization of `scanWorst`: either every index satisfying
the condition scores at least the u64 sentinel, or the result is the first
condition-satisfying minimizer. -/
theorem scanWorst_spec (cond : Nat → Bool) (score : Nat → Nat) (n : Nat) :
    ((scanWorst cond score n).1 = none ∧ (scanWorst cond score n).2 = U64 - 1 ∧
      ∀ q, q < n → cond q = true → U64 - 1 ≤ score q) ∨
    (∃ w, (scanWorst cond score n).1 = some w ∧ w < n ∧ cond w = true ∧
      (scanWorst cond score n).2 = score w ∧ score w < U64 - 1 ∧
      (∀ q, q < n → cond q = true → score w ≤ score q)) := by
  induction n with
  | zero => exact Or.inl ⟨rfl, rfl, fun q hq => absurd hq (Nat.not_lt_zero q)⟩
  | succ n ih =>
    by_cases hc : cond n = true
    · by_cases hs : score n < (scanWorst cond score n).2
      · have hres : scanWorst cond score (n + 1) = (some n, score n) := by
          simp [scanWorst, hc, hs]
        refine Or.inr ⟨n, by rw [hres], Nat.lt_succ_self n, hc, by rw [hres], ?_, ?_⟩
        · rcases ih with ⟨_, h2, _⟩ | ⟨w, _, _, _, h2, hlt, _⟩
          · rw [h2] at hs; exact hs
          · rw [h2] at hs; exact lt_trans hs hlt
        · intro q hq hcq
          rcases Nat.lt_succ_iff_lt_or_eq.mp hq with h | h
          · rcases ih with ⟨_, h2, h3⟩ | ⟨w, _, _, _, h2, _, hmin⟩
            · rw [h2] at hs; exact le_trans (le_of_lt hs) (h3 q h hcq)
            · rw [h2] at hs; exact le_trans (le_of_lt hs) (hmin q h hcq)
          · subst h; exact Nat.le_refl _
      · have hres : scanWorst cond score (n + 1) = scanWorst cond score n := by
          simp [scanWorst, hc, hs]
        push_neg at hs
        rcases ih with ⟨h1, h2, h3⟩ | ⟨w, h1, hw, hcw, h2, hlt, hmin⟩
        · refine Or.inl ⟨by rw [hres]; exact h1, by rw [hres]; exact h2, ?_⟩
          intro q hq hcq
          rcases Nat.lt_succ_iff_lt_or_eq.mp hq with h | h
          · exact h3 q h hcq
          · subst h; rw [h2] at hs; exact hs
        · refine Or.inr ⟨w, by rw [hres]; exact h1, Nat.lt_succ_of_lt hw, hcw,
            by rw [hres]; exact h2, hlt, ?_⟩
          intro q hq hcq
          rcases Nat.lt_succ_iff_lt_or_eq.mp hq with h | h
          · exact hmin q h hcq
          · subst h; rw [h2] at hs; exact hs
    · have hres : scanWorst cond score (n + 1) = scanWorst cond score n := by
        simp [scanWorst, hc]
      have hcf : cond n = false := by
        cases h : cond n
        · rfl
        · exact absurd h hc
      rcases ih with ⟨h1, h2, h3⟩ | ⟨w, h1, hw, hcw, h2, hlt, hmin⟩
      · refine Or.inl ⟨by rw [hres]; exact h1, by rw [hres]; exact h2, ?_⟩
        intro q hq hcq
        rcases Nat.lt_succ_iff_lt_or_eq.mp hq with h | h
        · exact h3 q h hcq
        · subst h; exact absurd hcq (by simp [hcf])
      · exact Or.inr ⟨w, by rw [hres]; exact h1, Nat.lt_succ_of_lt hw, hcw,
          by rw [hres]; exact h2, hlt, fun q hq hcq => by
            rcases Nat.lt_succ_iff_lt_or_eq.mp hq with h | h
            · exact hmin q h hcq
            · subst h; exact absurd hcq (by simp [hcf])⟩

/-- Complete characterization of `fallbackScan`: either no index scored below
the sentinel (the pre-loaded slot `MAX_PATHS - 1` survives), or the result is
the first minimizer. -/
theorem fallbackScan_spec (score : Nat → Nat) (n : Nat) :
    ((fallbackScan score n).1 = ZT_MAX_PEER_NETWORK_PATHS - 1 ∧
      (fallbackScan score n).2 = U64 - 1 ∧ ∀ q, q < n → U64 - 1 ≤ score q) ∨
    ((fallbackScan score n).1 < n ∧
      (fallbackScan score n).2 = score (fallbackScan score n).1 ∧
      (fallbackScan score n).2 < U64 - 1 ∧
      ∀ q, q < n → (fallbackScan score n).2 ≤ score q) := by
  induction n with
  | zero => exact Or.inl ⟨rfl, rfl, fun q hq => absurd hq (Nat.not_lt_zero q)⟩
  | succ n ih =>
    by_cases hs : score n < (fallbackScan score n).2
    · have hres : fallbackScan score (n + 1) = (n, score n) := by
        simp [fallbackScan, hs]
      rw [hres]
      refine Or.inr ⟨Nat.lt_succ_self n, rfl, ?_, ?_⟩
      · rcases ih with ⟨_, h2, _⟩ | ⟨_, _, h3, _⟩
        · rw [h2] at hs; exact hs
        · exact lt_trans hs h3
      · intro q hq
        rcases Nat.lt_succ_iff_lt_or_eq.mp hq with h | h
        · rcases ih with ⟨_, h2, h3⟩ | ⟨_, _, _, hmin⟩
          · rw [h2] at hs; exact le_trans (le_of_lt hs) (h3 q h)
          · exact le_trans (le_of_lt hs) (hmin q h)
        · subst h; exact Nat.le_refl _
    · have hres : fallbackScan score (n + 1) = fallbackScan score n := by
        simp [fallbackScan, hs]
      push_neg at hs
      rw [hres]
      rcases ih with ⟨h1, h2, h3⟩ | ⟨h1, h2, h3, hmin⟩
      · refine Or.inl ⟨h1, h2, ?_⟩
        intro q hq
        rcases Nat.lt_succ_iff_lt_or_eq.mp hq with h | h
        · exact h3 q h
        · subst h; rw [h2] at hs; exact hs
      · refine Or.inr ⟨Nat.lt_succ_of_lt h1, h2, h3, ?_⟩
        intro q hq
        rcases Nat.lt_succ_iff_lt_or_eq.mp hq with h | h
        · exact hmin q h
        · subst h; exact hs

/-- The packet built by `Peer::sendHELLO` (lines 263-277): protocol and
software versions, timestamp, serialized identity, the address the packet is
being sent to, and the world id/timestamp. -/
def helloPacket (s : PeerState) (env : Env) (atAddress : InetAddress) (now : Nat) : Packet :=
  { dest := s.idAddress, src := env.myAddress, verb := Verb.HELLO,
    fields := [Field.u8 env.protoVersion, Field.u8 env.verMajor, Field.u8 env.verMinor,
      Field.u16 env.verRevision, Field.u64 now, Field.raw env.idSerial,
      Field.inet atAddress, Field.u64 env.worldId, Field.u64 env.worldTimestamp] }

/-- Effect of `Peer::sendHELLO(localAddr, atAddress, now)`: the HELLO packet is
handed to the node packet sink (`RR->node->putPacket`). -/
def sendHELLO (s : PeerState) (env : Env) (localAddr atAddress : InetAddress) (now : Nat) : Event :=
  Event.putPacket localAddr atAddress (helloPacket s env atAddress now)

/-- The probe sent by `Peer::received` to confirm an unknown path (lines
185-193): peers with `proto >= 5` that are not version 1.1.0 get a bare ECHO
on the arriving path; everyone else gets a full HELLO. -/
def probeEvent (s : PeerState) (env : Env) (pth : Path) (now : Nat) : Event :=
  if 5 ≤ s.vProto ∧ ¬(s.vMajor = 1 ∧ s.vMinor = 1 ∧ s.vRevision = 0) then
    Event.pathSend pth.address
      { dest := s.idAddress, src := env.myAddress, verb := Verb.ECHO, fields := [] }
  else
    sendHELLO s env pth.localAddress pth.address now

/-- The one-record PUSH_DIRECT_PATHS built for a cluster redirect (lines
79-94): count 1, record flags `CLUSTER_REDIRECT`, no extensions, then the
endpoint (4/6-tagged, 6- or 18-byte entry) and its port. -/
def clusterRedirectPush (s : PeerState) (env : Env) (redirectTo : InetAddress) : Packet :=
  { dest := s.idAddress, src := env.myAddress, verb := Verb.PUSH_DIRECT_PATHS,
    fields := [Field.u16 1, Field.u8 ZT_PUSH_DIRECT_PATHS_FLAG_CLUSTER_REDIRECT,
        Field.u16 0] ++
      (if redirectTo.family = AF_INET then
        [Field.u8 4, Field.u8 6, Field.raw (redirectTo.ip.take 4)]
      else
        [Field.u8 6, Field.u8 18, Field.raw (redirectTo.ip.take 16)]) ++
      [Field.u16 redirectTo.port] }

/-- The legacy RENDEZVOUS built for a cluster redirect (lines 97-108): no
flags, the local node's own address (coaxing the peer to contact us at the
redirect endpoint), then port and raw address bytes. -/
def clusterRedirectRendezvous (s : PeerState) (env : Env) (redirectTo : InetAddress) : Packet :=
  { dest := s.idAddress, src := env.myAddress, verb := Verb.RENDEZVOUS,
    fields := [Field.u8 0, Field.ztAddr env.myAddress, Field.u16 redirectTo.port] ++
      (if redirectTo.family = AF_INET then
        [Field.u8 4, Field.raw (redirectTo.ip.take 4)]
      else
        [Field.u8 16, Field.raw (redirectTo.ip.take 16)]) }

/-- The cluster-redirect block at the top of `Peer::received` (lines 70-113):
runs only with a cluster context on a direct packet, only for verbs outside
the protected set, and only when the cluster reports a better endpoint; the
packet sent depends on the peer's protocol version. -/
def clusterRedirectEvents (s : PeerState) (env : Env) (pth : Path) (hops : Nat)
    (verb : Verb) : List Event :=
  if env.clusterEnabled = true ∧ hops = 0 then
    if verb ≠ Verb.OK ∧ verb ≠ Verb.ERROR ∧ verb ≠ Verb.RENDEZVOUS ∧
        verb ≠ Verb.PUSH_DIRECT_PATHS then
      match env.findBetterEndpoint with
      | some redirectTo =>
        if 5 ≤ s.vProto then
          [Event.pathSend pth.address (clusterRedirectPush s env redirectTo)]
        else
          [Event.pathSend pth.address (clusterRedirectRendezvous s env redirectTo)]
      | none => []
    else []
  else []

/-- The confirm scan of `Peer::received` (lines 126-136): find the first
populated slot whose remote address equals the arriving path's address; on a
hit refresh its `lastReceive` and replace its `Path` reference.  Returns the
updated array and whether the path was confirmed. -/
def confirmLoop (ps : List PathSlot) (pth : Path) (now : Nat) (p n : Nat) :
    List PathSlot × Bool :=
  if h : p < n then
    if (ps.getD p default).addr = pth.address then
      (ps.set p { path := some pth, lastReceive := now }, true)
    else confirmLoop ps pth now (p + 1) n
  else (ps, false)
termination_by n - p

/-- Slot selection for a learned path when the table is full (lines 148-172):
first pass over same-address-family slots with the sentinel-initialized
`worstScore`, then the any-family fallback starting from `MAX_PATHS - 1`. -/
def chooseSlot (s : PeerState) (fam : Nat) (score : Nat → Nat) : Nat :=
  match (scanWorst (fun p => (s.slotAddr p).family == fam) score s.numPaths).1 with
  | some w => w
  | none => (fallbackScan score s.numPaths).1

/-- Installation of a newly learned path (lines 144-176): append while the
table has room, otherwise overwrite the slot picked by `chooseSlot`. -/
def learnInstall (s : PeerState) (pth : Path) (now : Nat) (score : Nat → Nat) : PeerState :=
  if s.numPaths < ZT_MAX_PEER_NETWORK_PATHS then
    { s with paths := s.paths.set s.numPaths { path := some pth, lastReceive := now },
             numPaths := s.numPaths + 1 }
  else
    { s with paths := s.paths.set (chooseSlot s pth.address.family score)
                        { path := some pth, lastReceive := now } }

/-- The in-place compaction loop shared by `Peer::clean` and
`Peer::resetWithinScope` (read cursor `x`, write cursor `y`, bound `np`):
kept entries are copied down, and the final `y` becomes the new path count. -/
def compactLoop (ps : List PathSlot) (keep : PathSlot → Bool) (np x y : Nat) :
    List PathSlot × Nat :=
  if h : x < np then
    if keep (ps.getD x default) then
      if y = x then compactLoop ps keep np (x + 1) (y + 1)
      else compactLoop (ps.set y (ps.getD x default)) keep np (x + 1) (y + 1)
    else compactLoop ps keep np (x + 1) y
  else (ps, y)
termination_by np - x

/-- The trailing `path.zero()` loop of `clean` / `resetWithinScope`: release
the `Path` references of every slot from `y` up to `MAX_PATHS`. -/
def zeroTail (ps : List PathSlot) (y : Nat) : List PathSlot :=
  if h : y < ZT_MAX_PEER_NETWORK_PATHS then
    zeroTail (ps.set y { path := none, lastReceive := (ps.getD y default).lastReceive }) (y + 1)
  else ps
termination_by ZT_MAX_PEER_NETWORK_PATHS - y

/-- The retention test of `Peer::clean` (line 382), on u64 operands:
`(now - lastReceive) <= ZT_PEER_PATH_EXPIRATION`. -/
def pathKept (now : Nat) (sl : PathSlot) : Bool :=
  u64sub now sl.lastReceive ≤ ZT_PEER_PATH_EXPIRATION

/-- `Peer::clean(now)` (lines 375-397): compact the populated prefix keeping
only unexpired slots, update `numPaths`, and zero the freed tail references. -/
def Peer.clean (s : PeerState) (now : Nat) : PeerState :=
  { s with paths := zeroTail (compactLoop s.paths (pathKept now) s.numPaths 0 0).1
                      (compactLoop s.paths (pathKept now) s.numPaths 0 0).2,
           numPaths := (compactLoop s.paths (pathKept now) s.numPaths 0 0).2 }

/-- Retention test of `Peer::resetWithinScope` (line 325 negated): a slot is
kept when its remote address is not in the scope being reset. -/
def scopeKept (env : Env) (scope : Nat) (sl : PathSlot) : Bool :=
  ¬ env.ipScope sl.addr = scope

/-- `Peer::resetWithinScope(scope, now)` (lines 318-345): send a HELLO on
every in-scope path and drop it, compacting the remainder; returns whether
the path count shrank. -/
def Peer.resetWithinScope (s : PeerState) (env : Env) (scope : Nat) (now : Nat) :
    PeerState × List Event × Bool :=
  ({ s with paths := zeroTail (compactLoop s.paths (scopeKept env scope) s.numPaths 0 0).1
                       (compactLoop s.paths (scopeKept env scope) s.numPaths 0 0).2,
            numPaths := (compactLoop s.paths (scopeKept env scope) s.numPaths 0 0).2 },
   ((s.paths.take s.numPaths).filter (fun sl => env.ipScope sl.addr = scope)).map
     (fun sl => sendHELLO s env (sl.path.getD default).localAddress sl.addr now),
   decide ((compactLoop s.paths (scopeKept env scope) s.numPaths 0 0).2 < s.numPaths))

/-- The symmetric-NAT sampling loop of `_pushDirectPaths` (lines 417-425):
up to `sym.length` rounds, each drawing `sym[prng(i) % sym.length]`; a draw
not already gathered is appended, and the loop stops after
`MAX_PER_SCOPE_AND_FAMILY` additions. -/
def symSample (acc sym : List InetAddress) (prng : Nat → Nat) (i added : Nat) :
    List InetAddress :=
  if h : i < sym.length then
    if (sym.getD (prng i % sym.length) default) ∈ acc then
      symSample acc sym prng (i + 1) added
    else if ZT_PUSH_DIRECT_PATHS_MAX_PER_SCOPE_AND_FAMILY ≤ added + 1 then
      acc ++ [sym.getD (prng i % sym.length) default]
    else
      symSample (acc ++ [sym.getD (prng i % sym.length) default]) sym prng (i + 1) (added + 1)
  else acc
termination_by sym.length - i

/-- The full `pathsToPush` candidate list of `_pushDirectPaths` (lines
411-425): every locally-bound direct address, then the deduplicated
symmetric-NAT predictions. -/
def gatherPathsToPush (env : Env) : List InetAddress :=
  symSample env.directPaths env.symPredictions env.prng 0 0

/-- Family filter of the packetization loop (lines 449-458): only IPv4 and
IPv6 candidates are pushed, everything else is skipped. -/
def isPushableFamily (a : InetAddress) : Bool :=
  a.family == AF_INET || a.family == AF_INET6

/-- One wire record of a PUSH_DIRECT_PATHS batch (lines 460-465): no flags,
no extensions, address type 4 or 6, entry length 6 or 18, raw bytes, port. -/
def pushRecord (a : InetAddress) : List Field :=
  [Field.u8 0, Field.u16 0,
   Field.u8 (if a.family = AF_INET then 4 else 6),
   Field.u8 (if a.family = AF_INET then 6 else 18),
   Field.raw (a.ip.take (if a.family = AF_INET then 4 else 16)),
   Field.u16 a.port]

/-- `Peer::_pushDirectPaths(path, now)` (lines 399-479): disabled in cluster
mode; rate-limited by `ZT_DIRECT_PATH_PUSH_INTERVAL` (u64 arithmetic), with
the stamp updated as soon as the limiter passes; gathers candidates and, when
records remain after the family filter, sends them on the given path.  The
division of records into several sub-1200-byte packets is not modelled (the
framing header size lives in Packet.hpp): the batch is reported as one event
carrying all records in order, and no event is emitted when no record
survives, exactly as the source sends nothing when `count == 0`. -/
def pushDirectPaths (s : PeerState) (env : Env) (pth : Path) (now : Nat) :
    PeerState × List Event × Bool :=
  if env.clusterEnabled = true then (s, [], false)
  else if u64sub now s.lastDirectPathPushSent < ZT_DIRECT_PATH_PUSH_INTERVAL then
    (s, [], false)
  else
    if gatherPathsToPush env = [] then
      ({ s with lastDirectPathPushSent := now }, [], false)
    else
      ({ s with lastDirectPathPushSent := now },
       (if ((gatherPathsToPush env).filter isPushableFamily) = [] then []
        else [Event.pushDirectPathsSent pth.address
               (((gatherPathsToPush env).filter isPushableFamily).map pushRecord)]),
       true)

/-- `Peer::received` (lines 59-207): cluster redirect check, activity stamps,
then for direct packets the confirm scan followed by either learning (on OK)
or probing; relayed packets from trusted peers trigger the direct-path
pusher; finally the periodic multicast re-announce.  Returns the new state
and the emitted events. -/
def Peer.received (s : PeerState) (env : Env) (pth : Path) (hops : Nat) (verb : Verb)
    (trustEstablished : Bool) (now : Nat) (score : Nat → Nat) : PeerState × List Event :=
  let ce := clusterRedirectEvents s env pth hops verb
  let s1 : PeerState :=
    { s with lastReceive := now,
             lastUnicastFrame :=
               if verb = Verb.FRAME ∨ verb = Verb.EXT_FRAME then now else s.lastUnicastFrame,
             lastMulticastFrame :=
               if verb = Verb.MULTICAST_FRAME then now else s.lastMulticastFrame }
  let body : PeerState × List Event :=
    if hops = 0 then
      if (confirmLoop s1.paths pth now 0 s1.numPaths).2 = true then
        ({ s1 with paths := (confirmLoop s1.paths pth now 0 s1.numPaths).1 }, [])
      else if env.shouldUsePath = true then
        if verb = Verb.OK then (learnInstall s1 pth now score, [])
        else (s1, [probeEvent s1 env pth now])
      else (s1, [])
    else if trustEstablished = true then
      ((pushDirectPaths s1 env pth now).1, (pushDirectPaths s1 env pth now).2.1)
    else (s1, [])
  if ZT_MULTICAST_LIKE_EXPIRE / 2 - 1000 ≤ u64sub now body.1.lastAnnouncedTo then
    ({ body.1 with lastAnnouncedTo := now }, ce ++ body.2 ++ [Event.announceMulticastGroups])
  else (body.1, ce ++ body.2)

/-- `Peer::sendDirect(data, len, now, forceEvenIfDead)` (lines 219-240):
scan the populated prefix for the highest-scoring slot among those alive (or
all when forced) and call its `send`.  The chosen index is returned alongside
the boolean the caller sees. -/
def Peer.sendDirect (s : PeerState) (score : Nat → Nat) (now : Nat)
    (forceEvenIfDead : Bool) : Option Nat × Bool :=
  match (scanBest (fun p => ((s.slot p).path.getD default).aliveF now || forceEvenIfDead)
          score s.numPaths).1 with
  | some p => (some p, ((s.slot p).path.getD default).sendOk)
  | none => (none, false)

/-- `Peer::getBestActiveAddresses(now, v4, v6)` (lines 347-373): one pass
over the populated prefix tracking the best v4 and best v6 slot separately;
each out-parameter is overwritten only when its family had a candidate.  The
single loop is split into two scans here; the branches maintain disjoint
state, so the decomposition is exact.  The state is returned unchanged (the
method is const). -/
def Peer.getBestActiveAddresses (s : PeerState) (score : Nat → Nat) (v4 v6 : InetAddress) :
    PeerState × InetAddress × InetAddress :=
  (s,
   match (scanBest (fun p => (s.slotAddr p).family == AF_INET) score s.numPaths).1 with
   | some p => s.slotAddr p
   | none => v4,
   match (scanBest (fun p => (s.slotAddr p).family == AF_INET6) score s.numPaths).1 with
   | some p => s.slotAddr p
   | none => v6)

/-- The state built by the `Peer::Peer` initializer list (lines 35-54):
all stamps and version fields zero, an empty path table of `MAX_PATHS`
slots, and the agreed session key. -/
def initialState (k : List Nat) (peerAddress : Nat) : PeerState :=
  { idAddress := peerAddress, key := k, vProto := 0, vMajor := 0, vMinor := 0,
    vRevision := 0, paths := List.replicate ZT_MAX_PEER_NETWORK_PATHS default,
    numPaths := 0, lastReceive := 0, lastUnicastFrame := 0, lastMulticastFrame := 0,
    lastAnnouncedTo := 0, lastDirectPathPushSent := 0 }

/-- `Peer::Peer` (lines 35-57): key agreement between the two identities is
performed first; on failure the constructor throws and no object exists, on
success the object holds the agreed key.  `agreeResult` is the outcome of the
external `Identity::agree` call. -/
def Peer.construct (agreeResult : Option (List Nat)) (peerAddress : Nat) :
    Except String PeerState :=
  match agreeResult with
  | none => Except.error "new peer identity key agreement failed"
  | some k => Except.ok (initialState k peerAddress)

/-- One state-mutating call into Peer.cpp, with its external inputs chosen
arbitrarily.  `setVersion` stands for the external `setRemoteVersion` update
performed by HELLO processing outside this file. -/
inductive Step : PeerState → PeerState → Prop where
  | recv (s : PeerState) (env : Env) (pth : Path) (hops : Nat) (verb : Verb)
      (trust : Bool) (now : Nat) (score : Nat → Nat) :
      Step s (Peer.received s env pth hops verb trust now score).1
  | clean (s : PeerState) (now : Nat) : Step s (Peer.clean s now)
  | reset (s : PeerState) (env : Env) (scope now : Nat) :
      Step s (Peer.resetWithinScope s env scope now).1
  | push (s : PeerState) (env : Env) (pth : Path) (now : Nat) :
      Step s (pushDirectPaths s env pth now).1
  | setVersion (s : PeerState) (vp vM vm vr : Nat) :
      Step s { s with vProto := vp, vMajor := vM, vMinor := vm, vRevision := vr }

/-- All states a peer can be driven to by the operations of Peer.cpp. -/
def Reaches (s t : PeerState) : Prop := Relation.ReflTransGen Step s t

/-- Addresses of the populated slots, in slot order. -/
def addrList (s : PeerState) : List InetAddress :=
  (s.paths.take s.numPaths).map PathSlot.addr

/-- Structural health of the path table: full-size backing array, a count
within bounds, and pairwise-distinct remote addresses in the prefix. -/
def goodTable (s : PeerState) : Prop :=
  s.paths.length = ZT_MAX_PEER_NETWORK_PATHS ∧
  s.numPaths ≤ ZT_MAX_PEER_NETWORK_PATHS ∧ (addrList s).Nodup

section ListHelpers

variable {α : Type _}

theorem take_set_of_le (l : List α) (i n : Nat) (a : α) (h : n ≤ i) :
    (l.set i a).take n = l.take n := by
  apply List.ext_getElem
  · simp [List.length_take, List.length_set]
  · intro j h1 h2
    simp only [List.length_take, List.length_set, lt_inf_iff] at h1
    simp only [List.getElem_take]
    exact List.getElem_set_ne (by omega) _

theorem drop_set_of_lt (l : List α) (i n : Nat) (a : α) (h : i < n) :
    (l.set i a).drop n = l.drop n := by
  rw [List.drop_set, if_pos h]

theorem take_succ_set (l : List α) (i : Nat) (a : α) (h : i < l.length) :
    (l.set i a).take (i + 1) = l.take i ++ [a] := by
  apply List.ext_getElem
  · simp only [List.length_take, List.length_set, List.length_append,
      List.length_cons, List.length_nil]
    omega
  · intro j h1 h2
    simp only [List.length_take, List.length_set, lt_inf_iff] at h1
    simp only [List.getElem_take]
    rcases Nat.lt_or_ge j i with hji | hji
    · rw [List.getElem_append_left (by simp only [List.length_take]; omega)]
      simp only [List.getElem_take]
      exact List.getElem_set_ne (by omega) _
    · have hje : j = i := by omega
      subst hje
      rw [List.getElem_append_right (by simp only [List.length_take]; omega)]
      simp only [List.length_take, List.getElem_set_self]
      have hz : j - min j l.length = 0 := by omega
      simp [hz]

theorem take_set_of_lt (l : List α) (i n : Nat) (a : α) (_h : i < n) :
    (l.set i a).take n = (l.take n).set i a := by
  apply List.ext_getElem
  · simp [List.length_take, List.length_set]
  · intro j h1 h2
    simp only [List.length_take, List.length_set, lt_inf_iff] at h1
    simp only [List.getElem_take, List.getElem_set]

theorem getD_set_ne (l : List α) (i n : Nat) (a d : α) (h : i ≠ n) :
    (l.set i a).getD n d = l.getD n d := by
  rcases Nat.lt_or_ge n l.length with hn | hn
  · rw [List.getD_eq_getElem _ _ (by simp only [List.length_set]; omega),
      List.getD_eq_getElem _ _ hn]
    exact List.getElem_set_ne h _
  · rw [List.getD_eq_default _ _ (by simp only [List.length_set]; omega),
      List.getD_eq_default _ _ hn]

theorem getD_set_self (l : List α) (i : Nat) (a d : α) (h : i < l.length) :
    (l.set i a).getD i d = a := by
  rw [List.getD_eq_getElem _ _ (by simp only [List.length_set]; omega)]
  exact List.getElem_set_self _

theorem set_getD_self (l : List α) (i : Nat) (d : α) :
    l.set i (l.getD i d) = l := by
  rcases Nat.lt_or_ge i l.length with hi | hi
  · apply List.ext_getElem
    · simp [List.length_set]
    · intro j h1 h2
      rw [List.getElem_set]
      by_cases hij : i = j
      · subst hij
        rw [if_pos rfl]
        exact List.getD_eq_getElem _ _ hi
      · simp [hij]
  · exact List.set_eq_of_length_le hi

theorem nodup_set (l : List α) (w : Nat) (a : α) (ha : a ∉ l) (hn : l.Nodup) :
    (l.set w a).Nodup := by
  rcases Nat.lt_or_ge w l.length with hw | hw
  · have h := List.pairwise_iff_getElem.mp hn
    apply List.pairwise_iff_getElem.mpr
    intro i j hi hj hij
    simp only [List.length_set] at hi hj
    rw [List.getElem_set, List.getElem_set]
    by_cases h1 : w = i
    · subst h1
      rw [if_pos rfl, if_neg (by omega)]
      intro heq
      exact ha (heq ▸ List.getElem_mem hj)
    · rw [if_neg h1]
      by_cases h2 : w = j
      · subst h2
        rw [if_pos rfl]
        intro heq
        exact ha (heq ▸ List.getElem_mem hi)
      · rw [if_neg h2]
        exact h i j hi hj hij
  · rw [List.set_eq_of_length_le hw]
    exact hn

theorem count_set_self [DecidableEq α] (l : List α) (w : Nat) (a : α)
    (hw : w < l.length) (ha : a ∉ l) : (l.set w a).count a = 1 := by
  rw [List.set_eq_take_append_cons_drop, if_pos hw, List.count_append, List.count_cons]
  have h1 : List.count a (l.take w) = 0 :=
    List.count_eq_zero.mpr (fun hmem => ha ((List.take_sublist w l).subset hmem))
  have h2 : List.count a (l.drop (w + 1)) = 0 :=
    List.count_eq_zero.mpr (fun hmem => ha ((List.drop_sublist (w + 1) l).subset hmem))
  simp [h1, h2]

theorem mem_of_getD (l : List α) (n : Nat) (d : α) (h : n < l.length) :
    l.getD n d ∈ l := by
  have he : l.getD n d = l[n] := List.getD_eq_getElem l d h
  rw [he]
  exact List.getElem_mem h

end ListHelpers

/-- Full characterization of the compaction loop: lengths are preserved, the
final write cursor counts the kept entries of `[x, np)`, the prefix below the
final cursor is the untouched prefix below `y` followed by the kept entries in
order, and everything at `np` and beyond is untouched. -/
theorem compactLoop_spec :
    ∀ (ps : List PathSlot) (keep : PathSlot → Bool) (np x y : Nat), y ≤ x → np ≤ ps.length →
    (compactLoop ps keep np x y).1.length = ps.length ∧
    (compactLoop ps keep np x y).2 = y + ((ps.drop x).take (np - x)).countP keep ∧
    (compactLoop ps keep np x y).1.take (compactLoop ps keep np x y).2 =
      ps.take y ++ ((ps.drop x).take (np - x)).filter keep ∧
    (compactLoop ps keep np x y).1.drop np = ps.drop np := by
  intro ps keep np x y
  induction ps, keep, np, x, y using compactLoop.induct
  case case1 ps keep np y hx hkeep ih =>
    intro hyx2 hnp
    have hxl : y < ps.length := lt_of_lt_of_le hx hnp
    have hres : compactLoop ps keep np y y = compactLoop ps keep np (y + 1) (y + 1) := by
      conv_lhs => rw [compactLoop.eq_def]
      rw [dif_pos hx, if_pos hkeep, if_pos rfl]
    have hdec : (ps.drop y).take (np - y) =
        ps.getD y default :: (ps.drop (y + 1)).take (np - (y + 1)) := by
      rw [List.getD_eq_getElem _ _ hxl, List.drop_eq_getElem_cons hxl]
      obtain ⟨m, hm⟩ : ∃ m, np - y = m + 1 := ⟨np - y - 1, by omega⟩
      rw [hm]
      have h2 : np - (y + 1) = m := by omega
      rw [h2, List.take_succ_cons]
    have htx : ps.take (y + 1) = ps.take y ++ [ps.getD y default] := by
      rw [List.getD_eq_getElem _ _ hxl, List.take_succ]
      have hsome : ps[y]? = some ps[y] := List.getElem?_eq_getElem hxl
      rw [hsome]
      rfl
    rcases ih (by omega) hnp with ⟨ih1, ih2, ih3, ih4⟩
    refine ⟨by rw [hres]; exact ih1, ?_, ?_, by rw [hres]; exact ih4⟩
    · rw [hres, ih2, hdec, List.countP_cons, if_pos hkeep]
      omega
    · rw [hres, ih3, hdec, List.filter_cons, if_pos hkeep, htx, List.append_assoc]
      rfl
  case case2 ps keep np x y hx hkeep hyx ih =>
    intro hyx2 hnp
    have hylt : y < x := lt_of_le_of_ne hyx2 hyx
    have hxl : x < ps.length := lt_of_lt_of_le hx hnp
    have hyl : y < ps.length := lt_trans hylt hxl
    have hres : compactLoop ps keep np x y =
        compactLoop (ps.set y (ps.getD x default)) keep np (x + 1) (y + 1) := by
      conv_lhs => rw [compactLoop.eq_def]
      rw [dif_pos hx, if_pos hkeep, if_neg hyx]
    have hlen : (ps.set y (ps.getD x default)).length = ps.length := List.length_set ps y _
    have hdropx : (ps.set y (ps.getD x default)).drop (x + 1) = ps.drop (x + 1) :=
      drop_set_of_lt ps y (x + 1) _ (by omega)
    have hdropnp : (ps.set y (ps.getD x default)).drop np = ps.drop np :=
      drop_set_of_lt ps y np _ (by omega)
    have htakey : (ps.set y (ps.getD x default)).take (y + 1) =
        ps.take y ++ [ps.getD x default] := take_succ_set ps y _ hyl
    have hdec : (ps.drop x).take (np - x) =
        ps.getD x default :: (ps.drop (x + 1)).take (np - (x + 1)) := by
      rw [List.getD_eq_getElem _ _ hxl, List.drop_eq_getElem_cons hxl]
      obtain ⟨m, hm⟩ : ∃ m, np - x = m + 1 := ⟨np - x - 1, by omega⟩
      rw [hm]
      have h2 : np - (x + 1) = m := by omega
      rw [h2, List.take_succ_cons]
    rcases ih (by omega) (by omega) with ⟨ih1, ih2, ih3, ih4⟩
    refine ⟨?_, ?_, ?_, ?_⟩
    · rw [hres, ih1, hlen]
    · rw [hres, ih2, hdropx, hdec, List.countP_cons, if_pos hkeep]
      omega
    · rw [hres, ih3, hdropx, htakey, hdec, List.filter_cons, if_pos hkeep,
        List.append_assoc]
      rfl
    · rw [hres, ih4, hdropnp]
  case case3 ps keep np x y hx hkeep ih =>
    intro hyx2 hnp
    have hxl : x < ps.length := lt_of_lt_of_le hx hnp
    have hkf : keep (ps.getD x default) = false := by
      cases h : keep (ps.getD x default)
      · rfl
      · exact absurd h hkeep
    have hres : compactLoop ps keep np x y = compactLoop ps keep np (x + 1) y := by
      conv_lhs => rw [compactLoop.eq_def]
      rw [dif_pos hx, if_neg hkeep]
    have hdec : (ps.drop x).take (np - x) =
        ps.getD x default :: (ps.drop (x + 1)).take (np - (x + 1)) := by
      rw [List.getD_eq_getElem _ _ hxl, List.drop_eq_getElem_cons hxl]
      obtain ⟨m, hm⟩ : ∃ m, np - x = m + 1 := ⟨np - x - 1, by omega⟩
      rw [hm]
      have h2 : np - (x + 1) = m := by omega
      rw [h2, List.take_succ_cons]
    rcases ih (by omega) hnp with ⟨ih1, ih2, ih3, ih4⟩
    refine ⟨by rw [hres]; exact ih1, ?_, ?_, by rw [hres]; exact ih4⟩
    · rw [hres, ih2, hdec, List.countP_cons, if_neg hkeep]
      omega
    · rw [hres, ih3, hdec, List.filter_cons, if_neg hkeep]
  case case4 ps keep np x y hx =>
    intro hyx2 hnp
    have hres : compactLoop ps keep np x y = (ps, y) := by
      rw [compactLoop.eq_def, dif_neg hx]
    have hnx : np - x = 0 := by omega
    rw [hres, hnx]
    simp

theorem zeroTail_length : ∀ (ps : List PathSlot) (y : Nat),
    (zeroTail ps y).length = ps.length := by
  intro ps y
  induction ps, y using zeroTail.induct
  case case1 ps y hy ih =>
    have hres : zeroTail ps y =
        zeroTail (ps.set y { path := none, lastReceive := (ps.getD y default).lastReceive })
          (y + 1) := by
      conv_lhs => rw [zeroTail.eq_def]
      rw [dif_pos hy]
    rw [hres, ih, List.length_set]
  case case2 ps y hy =>
    rw [zeroTail.eq_def, dif_neg hy]

theorem zeroTail_getD_lt : ∀ (ps : List PathSlot) (y i : Nat), i < y →
    (zeroTail ps y).getD i default = ps.getD i default := by
  intro ps y
  induction ps, y using zeroTail.induct
  case case1 ps y hy ih =>
    intro i hi
    have hres : zeroTail ps y =
        zeroTail (ps.set y { path := none, lastReceive := (ps.getD y default).lastReceive })
          (y + 1) := by
      conv_lhs => rw [zeroTail.eq_def]
      rw [dif_pos hy]
    rw [hres, ih i (by omega), getD_set_ne _ _ _ _ _ (by omega)]
  case case2 ps y hy =>
    intro i hi
    rw [zeroTail.eq_def, dif_neg hy]

theorem zeroTail_path_none : ∀ (ps : List PathSlot) (y i : Nat), y ≤ i →
    i < ZT_MAX_PEER_NETWORK_PATHS → i < ps.length →
    ((zeroTail ps y).getD i default).path = none := by
  intro ps y
  induction ps, y using zeroTail.induct
  case case1 ps y hy ih =>
    intro i hyi hi hil
    have hres : zeroTail ps y =
        zeroTail (ps.set y { path := none, lastReceive := (ps.getD y default).lastReceive })
          (y + 1) := by
      conv_lhs => rw [zeroTail.eq_def]
      rw [dif_pos hy]
    by_cases hiy : i = y
    · subst hiy
      rw [hres, zeroTail_getD_lt _ _ _ (by omega),
        getD_set_self _ _ _ _ (by omega)]
    · rw [hres]
      exact ih i (by omega) hi (by rw [List.length_set]; omega)
  case case2 ps y hy =>
    intro i hyi hi hil
    omega

theorem zeroTail_take (ps : List PathSlot) (y : Nat) (_hy : y ≤ ps.length) :
    (zeroTail ps y).take y = ps.take y := by
  apply List.ext_getElem
  · simp [List.length_take, zeroTail_length]
  · intro j h1 h2
    simp only [List.length_take, lt_inf_iff, zeroTail_length] at h1
    simp only [List.getElem_take]
    have hjz : j < (zeroTail ps y).length := by rw [zeroTail_length]; omega
    have hjp : j < ps.length := by omega
    calc (zeroTail ps y)[j]
        = (zeroTail ps y).getD j default := (List.getD_eq_getElem _ _ hjz).symm
      _ = ps.getD j default := zeroTail_getD_lt _ _ _ (by omega)
      _ = ps[j] := List.getD_eq_getElem _ _ hjp

/-- Full characterization of the confirm scan: either no slot in `[p, n)`
matches the arriving address (array untouched, not confirmed), or the first
matching slot is refreshed in place and the scan reports confirmation. -/
theorem confirmLoop_spec : ∀ (ps : List PathSlot) (pth : Path) (now p n : Nat),
    ((confirmLoop ps pth now p n).1 = ps ∧ (confirmLoop ps pth now p n).2 = false ∧
      ∀ q, p ≤ q → q < n → (ps.getD q default).addr ≠ pth.address) ∨
    (∃ q0, p ≤ q0 ∧ q0 < n ∧ (ps.getD q0 default).addr = pth.address ∧
      (∀ q, p ≤ q → q < q0 → (ps.getD q default).addr ≠ pth.address) ∧
      confirmLoop ps pth now p n =
        (ps.set q0 { path := some pth, lastReceive := now }, true)) := by
  intro ps pth now
  have hmain := confirmLoop.induct ps pth now (fun p n =>
    ((confirmLoop ps pth now p n).1 = ps ∧ (confirmLoop ps pth now p n).2 = false ∧
      ∀ q, p ≤ q → q < n → (ps.getD q default).addr ≠ pth.address) ∨
    (∃ q0, p ≤ q0 ∧ q0 < n ∧ (ps.getD q0 default).addr = pth.address ∧
      (∀ q, p ≤ q → q < q0 → (ps.getD q default).addr ≠ pth.address) ∧
      confirmLoop ps pth now p n =
        (ps.set q0 { path := some pth, lastReceive := now }, true)))
  intro p n
  apply hmain
  · intro p n hp heq
    refine Or.inr ⟨p, Nat.le_refl p, hp, heq, fun q hq1 hq2 => absurd (lt_of_le_of_lt hq1 hq2)
      (lt_irrefl p), ?_⟩
    rw [confirmLoop.eq_def, dif_pos hp, if_pos heq]
  · intro p n hp hne ih
    have hres : confirmLoop ps pth now p n = confirmLoop ps pth now (p + 1) n := by
      conv_lhs => rw [confirmLoop.eq_def]
      rw [dif_pos hp, if_neg hne]
    rcases ih with ⟨h1, h2, h3⟩ | ⟨q0, hq1, hq2, hq3, hq4, hq5⟩
    · refine Or.inl ⟨by rw [hres]; exact h1, by rw [hres]; exact h2, ?_⟩
      intro q hpq hqn
      rcases Nat.eq_or_lt_of_le hpq with h | h
      · subst h; exact hne
      · exact h3 q h hqn
    · refine Or.inr ⟨q0, by omega, hq2, hq3, ?_, by rw [hres]; exact hq5⟩
      intro q hpq hq
      rcases Nat.eq_or_lt_of_le hpq with h | h
      · subst h; exact hne
      · exact hq4 q h hq
  · intro p n hp
    refine Or.inl ⟨?_, ?_, fun q hq1 hq2 => absurd (lt_of_le_of_lt hq1 hq2) (by omega)⟩
    · rw [confirmLoop.eq_def, dif_neg hp]
    · rw [confirmLoop.eq_def, dif_neg hp]

/-- C6: `clean(now)` compacts the path array in place so that afterwards
exactly the slots passing the expiration test `now - last_receive <=
PATH_EXPIRATION` (u64 arithmetic) remain, in their original relative order;
`num_paths` equals their count; the backing array keeps its size; and every
slot at an index at or beyond the new `num_paths` holds no `Path` reference
(dropped paths are released). -/
theorem clean_exact_survivors (s : PeerState) (now : Nat)
    (hlen : s.paths.length = ZT_MAX_PEER_NETWORK_PATHS)
    (hnum : s.numPaths ≤ ZT_MAX_PEER_NETWORK_PATHS) :
    (Peer.clean s now).numPaths =
      ((s.paths.take s.numPaths).filter (pathKept now)).length ∧
    (Peer.clean s now).paths.take (Peer.clean s now).numPaths =
      (s.paths.take s.numPaths).filter (pathKept now) ∧
    (Peer.clean s now).paths.length = ZT_MAX_PEER_NETWORK_PATHS ∧
    (Peer.clean s now).numPaths ≤ s.numPaths ∧
    ∀ i, (Peer.clean s now).numPaths ≤ i → i < ZT_MAX_PEER_NETWORK_PATHS →
      ((Peer.clean s now).paths.getD i default).path = none := by
  have hnp : s.numPaths ≤ s.paths.length := by rw [hlen]; exact hnum
  obtain ⟨c1, c2, c3, c4⟩ :=
    compactLoop_spec s.paths (pathKept now) s.numPaths 0 0 (Nat.le_refl 0) hnp
  simp only [List.drop_zero, Nat.sub_zero, List.take_zero, List.nil_append,
    Nat.zero_add] at c2 c3
  have hcountf : ((s.paths.take s.numPaths).filter (pathKept now)).length =
      (s.paths.take s.numPaths).countP (pathKept now) :=
    (List.countP_eq_length_filter _ _).symm
  have hc2np : (compactLoop s.paths (pathKept now) s.numPaths 0 0).2 ≤ s.numPaths := by
    rw [c2]
    calc (s.paths.take s.numPaths).countP (pathKept now)
        ≤ (s.paths.take s.numPaths).length := List.countP_le_length _
      _ = s.numPaths := by rw [List.length_take]; omega
  have hc2len : (compactLoop s.paths (pathKept now) s.numPaths 0 0).2 ≤
      (compactLoop s.paths (pathKept now) s.numPaths 0 0).1.length := by
    rw [c1]; omega
  have hclean : Peer.clean s now =
      { s with
        paths := zeroTail (compactLoop s.paths (pathKept now) s.numPaths 0 0).1
                   (compactLoop s.paths (pathKept now) s.numPaths 0 0).2,
        numPaths := (compactLoop s.paths (pathKept now) s.numPaths 0 0).2 } := rfl
  refine ⟨?_, ?_, ?_, ?_, ?_⟩
  · rw [hclean]
    simp only []
    rw [c2, hcountf]
  · rw [hclean]
    simp only []
    rw [zeroTail_take _ _ hc2len, c3]
  · rw [hclean]
    simp only []
    rw [zeroTail_length, c1, hlen]
  · rw [hclean]
    simp only []
    exact hc2np
  · intro i hi1 hi2
    rw [hclean] at hi1 ⊢
    simp only [] at hi1 ⊢
    exact zeroTail_path_none _ _ i hi1 hi2 (by rw [c1, hlen]; exact hi2)

/-- C4: a direct-path push arriving less than `DIRECT_PATH_PUSH_INTERVAL`
after the previous one returns false with no side effects (state unchanged,
nothing sent); an accepted call (cluster off, limiter passed) updates
`last_direct_path_push_sent` to `now` even if nothing is ultimately sent. -/
theorem pushDirectPaths_rate_limited (s : PeerState) (env : Env) (pth : Path) (now : Nat)
    (hle : s.lastDirectPathPushSent ≤ now) (hU : now < U64) :
    (now - s.lastDirectPathPushSent < ZT_DIRECT_PATH_PUSH_INTERVAL →
      pushDirectPaths s env pth now = (s, [], false)) ∧
    (env.clusterEnabled = false →
      ZT_DIRECT_PATH_PUSH_INTERVAL ≤ now - s.lastDirectPathPushSent →
      (pushDirectPaths s env pth now).1 = { s with lastDirectPathPushSent := now }) := by
  have hsub : u64sub now s.lastDirectPathPushSent = now - s.lastDirectPathPushSent :=
    u64sub_eq now s.lastDirectPathPushSent hle hU
  constructor
  · intro hlt
    unfold pushDirectPaths
    by_cases hc : env.clusterEnabled = true
    · rw [if_pos hc]
    · rw [if_neg hc, if_pos (by rw [hsub]; exact hlt)]
  · intro hc hge
    unfold pushDirectPaths
    rw [if_neg (by rw [hc]; exact Bool.false_ne_true),
      if_neg (by rw [hsub]; omega)]
    by_cases hg : gatherPathsToPush env = []
    · rw [if_pos hg]
    · rw [if_neg hg]

/-- Concrete peer/environment fixtures used by the witnesses below. -/
def mkAddr (fam b port : Nat) : InetAddress :=
  { family := fam, ip := [b], port := port }

def mkPath (fam b port : Nat) : Path :=
  { localAddress := mkAddr fam b port, address := mkAddr fam (b + 100) port,
    aliveF := fun _ => true, sendOk := true }

def wEnv : Env :=
  { myAddress := 1, protoVersion := 9, verMajor := 1, verMinor := 2, verRevision := 0,
    idSerial := [1, 2], worldId := 7, worldTimestamp := 8, clusterEnabled := false,
    findBetterEndpoint := none, shouldUsePath := true, directPaths := [],
    symPredictions := [], prng := fun _ => 0, ipScope := fun _ => 0 }

def wState : PeerState :=
  { idAddress := 2, key := [1], vProto := 9, vMajor := 1, vMinor := 2, vRevision := 0,
    paths := List.replicate ZT_MAX_PEER_NETWORK_PATHS default, numPaths := 0,
    lastReceive := 0, lastUnicastFrame := 0, lastMulticastFrame := 0,
    lastAnnouncedTo := 0, lastDirectPathPushSent := 100 }

/-- Witness for C4: at `now = 150`, 50 ms after the previous push, the call is
rejected without side effects; at `now = 200000` the stamp is updated. -/
theorem pushDirectPaths_rate_limited_witness :
    pushDirectPaths wState wEnv (mkPath 4 1 9993) 150 = (wState, [], false) ∧
    (pushDirectPaths wState wEnv (mkPath 4 1 9993) 200000).1 =
      { wState with lastDirectPathPushSent := 200000 } :=
  ⟨(pushDirectPaths_rate_limited wState wEnv (mkPath 4 1 9993) 150 (by decide)
      (by decide)).1 (by decide),
   (pushDirectPaths_rate_limited wState wEnv (mkPath 4 1 9993) 200000 (by decide)
      (by decide)).2 rfl (by decide)⟩

/-- C9: when the limiter passes but the gathered candidate list is empty, the
pusher returns false even though `last_direct_path_push_sent` was already set
to `now`; a false return therefore does not imply an unchanged state. -/
theorem pushDirectPaths_empty_candidates (s : PeerState) (env : Env) (pth : Path) (now : Nat)
    (hc : env.clusterEnabled = false) (hle : s.lastDirectPathPushSent ≤ now) (hU : now < U64)
    (hge : ZT_DIRECT_PATH_PUSH_INTERVAL ≤ now - s.lastDirectPathPushSent)
    (hempty : gatherPathsToPush env = []) :
    pushDirectPaths s env pth now = ({ s with lastDirectPathPushSent := now }, [], false) ∧
    (s.lastDirectPathPushSent ≠ now → (pushDirectPaths s env pth now).1 ≠ s) := by
  have hsub : u64sub now s.lastDirectPathPushSent = now - s.lastDirectPathPushSent :=
    u64sub_eq now s.lastDirectPathPushSent hle hU
  have hmain : pushDirectPaths s env pth now =
      ({ s with lastDirectPathPushSent := now }, [], false) := by
    unfold pushDirectPaths
    rw [if_neg (by rw [hc]; exact Bool.false_ne_true),
      if_neg (by rw [hsub]; omega), if_pos hempty]
  refine ⟨hmain, ?_⟩
  intro hne heq
  rw [hmain] at heq
  have heq2 : ({ s with lastDirectPathPushSent := now } : PeerState) = s := heq
  exact hne (congrArg PeerState.lastDirectPathPushSent heq2).symm

/-- Witness for C9: empty direct-path and prediction lists, limiter passed. -/
theorem pushDirectPaths_empty_candidates_witness :
    pushDirectPaths wState wEnv (mkPath 4 1 9993) 300000 =
      ({ wState with lastDirectPathPushSent := 300000 }, [], false) ∧
    (pushDirectPaths wState wEnv (mkPath 4 1 9993) 300000).1 ≠ wState :=
  ⟨(pushDirectPaths_empty_candidates wState wEnv (mkPath 4 1 9993) 300000 rfl
      (by decide) (by decide) (by decide)
      (by simp [gatherPathsToPush, symSample, wEnv])).1,
   (pushDirectPaths_empty_candidates wState wEnv (mkPath 4 1 9993) 300000 rfl
      (by decide) (by decide) (by decide)
      (by simp [gatherPathsToPush, symSample, wEnv])).2 (by decide)⟩

def wCleanState : PeerState :=
  { wState with
    paths := { path := some (mkPath 4 1 9993), lastReceive := 0 } ::
      { path := some (mkPath 6 2 9993), lastReceive := 640000 } ::
      List.replicate 14 default,
    numPaths := 2 }

/-- Witness for C6: at `now = 650000` the first slot (silent for 650 s) is
dropped while the second survives, and the backing array keeps its size. -/
theorem clean_exact_survivors_witness :
    (Peer.clean wCleanState 650000).numPaths =
      ((wCleanState.paths.take wCleanState.numPaths).filter (pathKept 650000)).length ∧
    (Peer.clean wCleanState 650000).paths.take (Peer.clean wCleanState 650000).numPaths =
      (wCleanState.paths.take wCleanState.numPaths).filter (pathKept 650000) ∧
    (Peer.clean wCleanState 650000).paths.length = ZT_MAX_PEER_NETWORK_PATHS :=
  ⟨(clean_exact_survivors wCleanState 650000 rfl (by decide)).1,
   (clean_exact_survivors wCleanState 650000 rfl (by decide)).2.1,
   (clean_exact_survivors wCleanState 650000 rfl (by decide)).2.2.1⟩

/-- C5: `sendDirect` considers exactly the slots alive at `now` (all slots
when forced); among those it picks the highest score, later slots winning
ties (the `>=` comparison); it returns the chosen slot's `send` result; a
non-empty table with `force` always selects a slot; an empty table yields
`(none, false)` with nothing sent. -/
theorem sendDirect_selects_best (s : PeerState) (score : Nat → Nat) (now : Nat)
    (force : Bool) :
    (∀ p, (Peer.sendDirect s score now force).1 = some p →
      p < s.numPaths ∧
      (((s.slot p).path.getD default).aliveF now || force) = true ∧
      (∀ q, q < s.numPaths → (((s.slot q).path.getD default).aliveF now || force) = true →
        score q ≤ score p) ∧
      (∀ q, p < q → q < s.numPaths →
        (((s.slot q).path.getD default).aliveF now || force) = true → score q < score p) ∧
      (Peer.sendDirect s score now force).2 = ((s.slot p).path.getD default).sendOk) ∧
    (0 < s.numPaths → force = true →
      ((Peer.sendDirect s score now force).1).isSome = true) ∧
    (s.numPaths = 0 → Peer.sendDirect s score now force = (none, false)) := by
  rcases scanBest_spec (fun p => ((s.slot p).path.getD default).aliveF now || force)
      score s.numPaths with ⟨h1, h2, h3⟩ | ⟨b, h1, hb, hcb, h2, hmax, hlast⟩
  · have hsd : Peer.sendDirect s score now force = (none, false) := by
      unfold Peer.sendDirect
      rw [h1]
    refine ⟨?_, ?_, fun _ => hsd⟩
    · intro p hp
      rw [hsd] at hp
      exact absurd hp (by simp)
    · intro hpos hforce
      have hc0 := h3 0 hpos
      rw [hforce, Bool.or_true] at hc0
      exact absurd hc0 (by simp)
  · have hsd : Peer.sendDirect s score now force =
        (some b, ((s.slot b).path.getD default).sendOk) := by
      unfold Peer.sendDirect
      rw [h1]
    refine ⟨?_, ?_, ?_⟩
    · intro p hp
      rw [hsd] at hp
      have hbp : b = p := by
        have := hp
        simp at this
        exact this
      subst hbp
      exact ⟨hb, hcb, hmax, hlast, by rw [hsd]⟩
    · intro _hpos _hforce
      rw [hsd]
      rfl
    · intro h0
      rw [h0] at hb
      exact absurd hb (Nat.not_lt_zero b)

def wSendState : PeerState :=
  { wState with
    paths := { path := some (mkPath 4 1 9993), lastReceive := 0 } ::
      List.replicate 15 default,
    numPaths := 1 }

/-- Witness for C5: a one-slot table under force selects a slot, and an
empty table returns `(none, false)`. -/
theorem sendDirect_selects_best_witness :
    ((Peer.sendDirect wSendState (fun p => p) 0 true).1).isSome = true ∧
    Peer.sendDirect wState (fun p => p) 0 true = (none, false) :=
  ⟨(sendDirect_selects_best wSendState (fun p => p) 0 true).2.1 (by decide) rfl,
   (sendDirect_selects_best wState (fun p => p) 0 true).2.2 rfl⟩

/-- C10: `getBestActiveAddresses` overwrites the `v4` (resp. `v6`)
out-parameter only when a slot of that family exists; with no such slot the
caller's value is returned untouched; the peer state itself is unmodified
(const method).  When a family has slots, the written value is the remote
address of a best-scoring slot of that family. -/
theorem getBestActiveAddresses_frame (s : PeerState) (score : Nat → Nat)
    (v4 v6 : InetAddress) :
    (Peer.getBestActiveAddresses s score v4 v6).1 = s ∧
    ((∀ p, p < s.numPaths → (s.slotAddr p).family ≠ AF_INET) →
      (Peer.getBestActiveAddresses s score v4 v6).2.1 = v4) ∧
    ((∀ p, p < s.numPaths → (s.slotAddr p).family ≠ AF_INET6) →
      (Peer.getBestActiveAddresses s score v4 v6).2.2 = v6) ∧
    ((∃ p, p < s.numPaths ∧ (s.slotAddr p).family = AF_INET) →
      ∃ b, b < s.numPaths ∧ (s.slotAddr b).family = AF_INET ∧
        (Peer.getBestActiveAddresses s score v4 v6).2.1 = s.slotAddr b ∧
        ∀ q, q < s.numPaths → (s.slotAddr q).family = AF_INET → score q ≤ score b) ∧
    ((∃ p, p < s.numPaths ∧ (s.slotAddr p).family = AF_INET6) →
      ∃ b, b < s.numPaths ∧ (s.slotAddr b).family = AF_INET6 ∧
        (Peer.getBestActiveAddresses s score v4 v6).2.2 = s.slotAddr b ∧
        ∀ q, q < s.numPaths → (s.slotAddr q).family = AF_INET6 → score q ≤ score b) := by
  refine ⟨rfl, ?_, ?_, ?_, ?_⟩
  · intro hnone
    rcases scanBest_spec (fun p => (s.slotAddr p).family == AF_INET) score s.numPaths with
      ⟨h1, _, _⟩ | ⟨b, h1, hb, hcb, _, _, _⟩
    · unfold Peer.getBestActiveAddresses
      rw [h1]
    · exact absurd (beq_iff_eq.mp hcb) (hnone b hb)
  · intro hnone
    rcases scanBest_spec (fun p => (s.slotAddr p).family == AF_INET6) score s.numPaths with
      ⟨h1, _, _⟩ | ⟨b, h1, hb, hcb, _, _, _⟩
    · unfold Peer.getBestActiveAddresses
      rw [h1]
    · exact absurd (beq_iff_eq.mp hcb) (hnone b hb)
  · intro hex
    rcases scanBest_spec (fun p => (s.slotAddr p).family == AF_INET) score s.numPaths with
      ⟨_, _, h3⟩ | ⟨b, h1, hb, hcb, _, hmax, _⟩
    · rcases hex with ⟨p, hp, hfam⟩
      exact absurd (beq_iff_eq.mpr hfam) (by simp [h3 p hp])
    · refine ⟨b, hb, beq_iff_eq.mp hcb, ?_, ?_⟩
      · unfold Peer.getBestActiveAddresses
        rw [h1]
      · intro q hq hfq
        exact hmax q hq (beq_iff_eq.mpr hfq)
  · intro hex
    rcases scanBest_spec (fun p => (s.slotAddr p).family == AF_INET6) score s.numPaths with
      ⟨_, _, h3⟩ | ⟨b, h1, hb, hcb, _, hmax, _⟩
    · rcases hex with ⟨p, hp, hfam⟩
      exact absurd (beq_iff_eq.mpr hfam) (by simp [h3 p hp])
    · refine ⟨b, hb, beq_iff_eq.mp hcb, ?_, ?_⟩
      · unfold Peer.getBestActiveAddresses
        rw [h1]
      · intro q hq hfq
        exact hmax q hq (beq_iff_eq.mpr hfq)

/-- Witness for C10: a table with a single v4 slot leaves the v6 out-parameter
untouched, writes the v4 one, and does not modify the state. -/
theorem getBestActiveAddresses_frame_witness :
    (Peer.getBestActiveAddresses wSendState (fun p => p) (mkAddr 4 7 7)
      (mkAddr 6 8 8)).1 = wSendState ∧
    (Peer.getBestActiveAddresses wSendState (fun p => p) (mkAddr 4 7 7)
      (mkAddr 6 8 8)).2.2 = mkAddr 6 8 8 :=
  ⟨(getBestActiveAddresses_frame wSendState (fun p => p) (mkAddr 4 7 7) (mkAddr 6 8 8)).1,
   (getBestActiveAddresses_frame wSendState (fun p => p) (mkAddr 4 7 7)
      (mkAddr 6 8 8)).2.2.1 (by decide)⟩

/-- C7: the cluster redirector fires only on direct packets, only with a
cluster context, and never for `OK`, `ERROR`, `RENDEZVOUS` or
`PUSH_DIRECT_PATHS`; when the cluster yields a better endpoint, a peer with
`proto >= 5` receives a one-record `PUSH_DIRECT_PATHS` whose record flags are
`CLUSTER_REDIRECT`, and an older peer receives a `RENDEZVOUS` carrying the
local node's own address and the redirect endpoint. -/
theorem cluster_redirect_gating (s : PeerState) (env : Env) (pth : Path) (hops : Nat)
    (verb : Verb) :
    (hops ≠ 0 → clusterRedirectEvents s env pth hops verb = []) ∧
    (env.clusterEnabled = false → clusterRedirectEvents s env pth hops verb = []) ∧
    ((verb = Verb.OK ∨ verb = Verb.ERROR ∨ verb = Verb.RENDEZVOUS ∨
        verb = Verb.PUSH_DIRECT_PATHS) →
      clusterRedirectEvents s env pth hops verb = []) ∧
    (∀ r, env.clusterEnabled = true → hops = 0 →
      verb ≠ Verb.OK → verb ≠ Verb.ERROR → verb ≠ Verb.RENDEZVOUS →
      verb ≠ Verb.PUSH_DIRECT_PATHS → env.findBetterEndpoint = some r →
      (5 ≤ s.vProto →
        clusterRedirectEvents s env pth hops verb =
          [Event.pathSend pth.address (clusterRedirectPush s env r)] ∧
        (clusterRedirectPush s env r).verb = Verb.PUSH_DIRECT_PATHS ∧
        (clusterRedirectPush s env r).fields.take 2 =
          [Field.u16 1, Field.u8 ZT_PUSH_DIRECT_PATHS_FLAG_CLUSTER_REDIRECT]) ∧
      (s.vProto < 5 →
        clusterRedirectEvents s env pth hops verb =
          [Event.pathSend pth.address (clusterRedirectRendezvous s env r)] ∧
        (clusterRedirectRendezvous s env r).verb = Verb.RENDEZVOUS ∧
        (clusterRedirectRendezvous s env r).fields.take 2 =
          [Field.u8 0, Field.ztAddr env.myAddress])) := by
  refine ⟨?_, ?_, ?_, ?_⟩
  · intro hh
    unfold clusterRedirectEvents
    rw [if_neg (fun hand => hh hand.2)]
  · intro hc
    unfold clusterRedirectEvents
    rw [if_neg (fun hand => by rw [hc] at hand; exact Bool.false_ne_true hand.1)]
  · intro hv
    unfold clusterRedirectEvents
    by_cases hch : env.clusterEnabled = true ∧ hops = 0
    · rw [if_pos hch,
        if_neg (fun hand => by
          rcases hv with h | h | h | h
          · exact hand.1 h
          · exact hand.2.1 h
          · exact hand.2.2.1 h
          · exact hand.2.2.2 h)]
    · rw [if_neg hch]
  · intro r hc hh hv1 hv2 hv3 hv4 hfind
    have hres1 : clusterRedirectEvents s env pth hops verb =
        (if 5 ≤ s.vProto then
          [Event.pathSend pth.address (clusterRedirectPush s env r)]
        else
          [Event.pathSend pth.address (clusterRedirectRendezvous s env r)]) := by
      unfold clusterRedirectEvents
      rw [if_pos ⟨hc, hh⟩, if_pos ⟨hv1, hv2, hv3, hv4⟩, hfind]
    constructor
    · intro hp
      refine ⟨by rw [hres1, if_pos hp], rfl, ?_⟩
      unfold clusterRedirectPush
      by_cases hf : r.family = AF_INET
      · rw [if_pos hf]
        rfl
      · rw [if_neg hf]
        rfl
    · intro hp
      refine ⟨by rw [hres1, if_neg (by omega)], rfl, ?_⟩
      unfold clusterRedirectRendezvous
      by_cases hf : r.family = AF_INET
      · rw [if_pos hf]
        rfl
      · rw [if_neg hf]
        rfl

def wClusterEnv : Env :=
  { wEnv with clusterEnabled := true, findBetterEndpoint := some (mkAddr 4 9 99) }

/-- Witness for C7: cluster on, FRAME received directly, redirect available,
modern peer: one PUSH_DIRECT_PATHS with the CLUSTER_REDIRECT record flag. -/
theorem cluster_redirect_gating_witness :
    clusterRedirectEvents wState wClusterEnv (mkPath 4 1 9993) 0 Verb.FRAME =
      [Event.pathSend (mkPath 4 1 9993).address
        (clusterRedirectPush wState wClusterEnv (mkAddr 4 9 99))] ∧
    (clusterRedirectPush wState wClusterEnv (mkAddr 4 9 99)).fields.take 2 =
      [Field.u16 1, Field.u8 ZT_PUSH_DIRECT_PATHS_FLAG_CLUSTER_REDIRECT] ∧
    clusterRedirectEvents wState wClusterEnv (mkPath 4 1 9993) 0 Verb.OK = [] :=
  ⟨((cluster_redirect_gating wState wClusterEnv (mkPath 4 1 9993) 0 Verb.FRAME).2.2.2
      (mkAddr 4 9 99) rfl rfl (by decide) (by decide) (by decide) (by decide) rfl).1
      (by decide) |>.1,
   ((cluster_redirect_gating wState wClusterEnv (mkPath 4 1 9993) 0 Verb.FRAME).2.2.2
      (mkAddr 4 9 99) rfl rfl (by decide) (by decide) (by decide) (by decide) rfl).1
      (by decide) |>.2.2,
   (cluster_redirect_gating wState wClusterEnv (mkPath 4 1 9993) 0 Verb.OK).2.2.1
      (Or.inl rfl)⟩

/-- The activity-stamp update at the top of `Peer::received` (lines 116-120),
as a named state for use in theorem statements. -/
def stampFrames (s : PeerState) (verb : Verb) (now : Nat) : PeerState :=
  { s with lastReceive := now,
           lastUnicastFrame :=
             if verb = Verb.FRAME ∨ verb = Verb.EXT_FRAME then now
             else s.lastUnicastFrame,
           lastMulticastFrame :=
             if verb = Verb.MULTICAST_FRAME then now else s.lastMulticastFrame }

/-- C3: a direct packet with a verb other than OK on an unknown but permitted
path leaves the table unchanged and sends exactly one probe on the arriving
path; the probe is a bare ECHO when `proto >= 5` and the version is not
1.1.0, and a full HELLO otherwise. -/
theorem probe_version_gated (s : PeerState) (env : Env) (pth : Path) (verb : Verb)
    (trust : Bool) (now : Nat) (score : Nat → Nat)
    (hcl : env.clusterEnabled = false)
    (hfresh : ∀ p, p < s.numPaths → s.slotAddr p ≠ pth.address)
    (huse : env.shouldUsePath = true)
    (hverb : verb ≠ Verb.OK)
    (hann : u64sub now s.lastAnnouncedTo < ZT_MULTICAST_LIKE_EXPIRE / 2 - 1000) :
    (Peer.received s env pth 0 verb trust now score).2 = [probeEvent s env pth now] ∧
    (Peer.received s env pth 0 verb trust now score).1.paths = s.paths ∧
    (Peer.received s env pth 0 verb trust now score).1.numPaths = s.numPaths ∧
    (5 ≤ s.vProto ∧ ¬(s.vMajor = 1 ∧ s.vMinor = 1 ∧ s.vRevision = 0) →
      probeEvent s env pth now = Event.pathSend pth.address
        { dest := s.idAddress, src := env.myAddress, verb := Verb.ECHO, fields := [] }) ∧
    (¬(5 ≤ s.vProto ∧ ¬(s.vMajor = 1 ∧ s.vMinor = 1 ∧ s.vRevision = 0)) →
      probeEvent s env pth now = sendHELLO s env pth.localAddress pth.address now) := by
  have hconf : confirmLoop s.paths pth now 0 s.numPaths = (s.paths, false) := by
    rcases confirmLoop_spec s.paths pth now 0 s.numPaths with
      ⟨h1, h2, _⟩ | ⟨q0, _, hq2, hq3, _, _⟩
    · rw [Prod.ext_iff]
      exact ⟨h1, h2⟩
    · exact absurd hq3 (hfresh q0 hq2)
  have hce : clusterRedirectEvents s env pth 0 verb = [] := by
    unfold clusterRedirectEvents
    rw [if_neg (fun hand => by rw [hcl] at hand; exact Bool.false_ne_true hand.1)]
  have hmain : Peer.received s env pth 0 verb trust now score =
      (stampFrames s verb now, [probeEvent s env pth now]) := by
    unfold Peer.received
    dsimp only
    rw [hconf]
    rw [if_pos (show (0 : Nat) = 0 from rfl)]
    rw [if_neg (show ¬((s.paths, false).2 = true) from by simp)]
    rw [if_pos huse, if_neg hverb]
    rw [if_neg (Nat.not_le.mpr hann)]
    rw [hce, List.nil_append]
    rfl
  rw [hmain]
  refine ⟨rfl, rfl, rfl, ?_, ?_⟩
  · intro hmodern
    unfold probeEvent
    rw [if_pos hmodern]
  · intro hold
    unfold probeEvent
    rw [if_neg hold]

def wOldState : PeerState := { wState with vProto := 4 }

/-- Witness for C3: a modern peer (proto 9, version 1.2.0) gets a bare ECHO;
a proto-4 peer gets a full HELLO. -/
theorem probe_version_gated_witness :
    (Peer.received wState wEnv (mkPath 4 1 9993) 0 Verb.FRAME false 5 (fun p => p)).2 =
      [probeEvent wState wEnv (mkPath 4 1 9993) 5] ∧
    probeEvent wState wEnv (mkPath 4 1 9993) 5 =
      Event.pathSend (mkPath 4 1 9993).address
        { dest := wState.idAddress, src := wEnv.myAddress, verb := Verb.ECHO,
          fields := [] } ∧
    probeEvent wOldState wEnv (mkPath 4 1 9993) 5 =
      sendHELLO wOldState wEnv (mkPath 4 1 9993).localAddress (mkPath 4 1 9993).address 5 :=
  ⟨(probe_version_gated wState wEnv (mkPath 4 1 9993) Verb.FRAME false 5 (fun p => p)
      rfl (by decide) rfl (by decide) (by decide)).1,
   (probe_version_gated wState wEnv (mkPath 4 1 9993) Verb.FRAME false 5 (fun p => p)
      rfl (by decide) rfl (by decide) (by decide)).2.2.2.1 (by decide),
   (probe_version_gated wOldState wEnv (mkPath 4 1 9993) Verb.FRAME false 5 (fun p => p)
      rfl (by decide) rfl (by decide) (by decide)).2.2.2.2 (by decide)⟩

/-- Complete characterization of the eviction slot choice: the chosen slot is
in range; when some same-family slot scores below the u64 sentinel, the
choice is a minimal same-family slot; when every same-family slot (if any)
sits at the sentinel, the choice is minimal across all slots. -/
theorem chooseSlot_spec (s : PeerState) (fam : Nat) (score : Nat → Nat)
    (hfull : s.numPaths = ZT_MAX_PEER_NETWORK_PATHS)
    (hbound : ∀ p, p < s.numPaths → score p < U64) :
    chooseSlot s fam score < ZT_MAX_PEER_NETWORK_PATHS ∧
    ((∃ p, p < s.numPaths ∧ (s.slotAddr p).family = fam ∧ score p < U64 - 1) →
      (s.slotAddr (chooseSlot s fam score)).family = fam ∧
      ∀ q, q < s.numPaths → (s.slotAddr q).family = fam →
        score (chooseSlot s fam score) ≤ score q) ∧
    ((∀ p, p < s.numPaths → (s.slotAddr p).family = fam → ¬score p < U64 - 1) →
      ∀ q, q < s.numPaths → score (chooseSlot s fam score) ≤ score q) := by
  rcases scanWorst_spec (fun p => (s.slotAddr p).family == fam) score s.numPaths with
    ⟨w1, _, w3⟩ | ⟨w, w1, hw, hcw, _, hlt, hmin⟩
  · have hcs : chooseSlot s fam score = (fallbackScan score s.numPaths).1 := by
      unfold chooseSlot
      rw [w1]
    rcases fallbackScan_spec score s.numPaths with ⟨f1, _, f3⟩ | ⟨f1, f2, _, fmin⟩
    · have h15 : chooseSlot s fam score = ZT_MAX_PEER_NETWORK_PATHS - 1 := by
        rw [hcs, f1]
      refine ⟨by rw [h15]; decide, ?_, ?_⟩
      · intro ⟨p, hp, hfp, hsp⟩
        exact absurd hsp (Nat.not_lt.mpr (f3 p hp))
      · intro _ q hq
        have hq1 : U64 - 1 ≤ score q := f3 q hq
        have hq2 : score q < U64 := hbound q hq
        have h15lt : ZT_MAX_PEER_NETWORK_PATHS - 1 < s.numPaths := by
          rw [hfull]; decide
        have hc1 : U64 - 1 ≤ score (ZT_MAX_PEER_NETWORK_PATHS - 1) := f3 _ h15lt
        have hc2 : score (ZT_MAX_PEER_NETWORK_PATHS - 1) < U64 := hbound _ h15lt
        rw [h15]
        omega
    · refine ⟨by rw [hcs]; omega, ?_, ?_⟩
      · intro ⟨p, hp, hfp, hsp⟩
        exact absurd hsp (Nat.not_lt.mpr (w3 p hp (beq_iff_eq.mpr hfp)))
      · intro _ q hq
        have := fmin q hq
        rw [hcs, ← f2]
        exact this
  · have hcs : chooseSlot s fam score = w := by
      unfold chooseSlot
      rw [w1]
    refine ⟨by rw [hcs, ← hfull]; exact hw, ?_, ?_⟩
    · intro _
      rw [hcs]
      exact ⟨beq_iff_eq.mp hcw, fun q hq hfq => hmin q hq (beq_iff_eq.mpr hfq)⟩
    · intro hall
      exact absurd hlt (hall w hw (beq_iff_eq.mp hcw))

/-- Shape of `learnInstall`: append below capacity, overwrite the chosen slot
at capacity. -/
theorem learnInstall_paths (s : PeerState) (pth : Path) (now : Nat) (score : Nat → Nat) :
    (s.numPaths < ZT_MAX_PEER_NETWORK_PATHS →
      (learnInstall s pth now score).paths =
        s.paths.set s.numPaths { path := some pth, lastReceive := now } ∧
      (learnInstall s pth now score).numPaths = s.numPaths + 1) ∧
    (¬s.numPaths < ZT_MAX_PEER_NETWORK_PATHS →
      (learnInstall s pth now score).paths =
        s.paths.set (chooseSlot s pth.address.family score)
          { path := some pth, lastReceive := now } ∧
      (learnInstall s pth now score).numPaths = s.numPaths) := by
  constructor
  · intro hlt
    unfold learnInstall
    rw [if_pos hlt]
    exact ⟨rfl, rfl⟩
  · intro hge
    unfold learnInstall
    rw [if_neg hge]
    exact ⟨rfl, rfl⟩

/-- State effect of `Peer::received` on a fresh permitted direct OK packet:
the path table becomes that of `learnInstall` on the stamped state. -/
theorem received_learn_state (s : PeerState) (env : Env) (pth : Path) (trust : Bool)
    (now : Nat) (score : Nat → Nat)
    (hfresh : ∀ p, p < s.numPaths → s.slotAddr p ≠ pth.address)
    (huse : env.shouldUsePath = true) :
    (Peer.received s env pth 0 Verb.OK trust now score).1.paths =
      (learnInstall (stampFrames s Verb.OK now) pth now score).paths ∧
    (Peer.received s env pth 0 Verb.OK trust now score).1.numPaths =
      (learnInstall (stampFrames s Verb.OK now) pth now score).numPaths := by
  have hconf : confirmLoop s.paths pth now 0 s.numPaths = (s.paths, false) := by
    rcases confirmLoop_spec s.paths pth now 0 s.numPaths with
      ⟨h1, h2, _⟩ | ⟨q0, _, hq2, hq3, _, _⟩
    · rw [Prod.ext_iff]
      exact ⟨h1, h2⟩
    · exact absurd hq3 (hfresh q0 hq2)
  unfold Peer.received
  dsimp only
  rw [hconf]
  rw [if_pos (show (0 : Nat) = 0 from rfl)]
  rw [if_neg (show ¬((s.paths, false).2 = true) from by simp)]
  rw [if_pos huse, if_pos rfl]
  have hv1 : ¬(Verb.OK = Verb.FRAME ∨ Verb.OK = Verb.EXT_FRAME) := by simp
  have hv2 : Verb.OK ≠ Verb.MULTICAST_FRAME := by simp
  simp only [if_neg hv1, if_neg hv2]
  constructor
  · split
    · rfl
    · rfl
  · split
    · rfl
    · rfl

/-- C1 (amended): when a fresh permitted direct OK packet arrives on a full
table, the replacement slot is `chooseSlot`; provided some same-family slot
scores strictly below the u64 sentinel `2^64 - 1`, the chosen slot is a
lowest-scoring same-family slot; when every same-family slot (in particular
when none exists) sits at the sentinel, the choice falls back to a
lowest-scoring slot across all families (slot `MAX_PATHS - 1` when the
whole table sits at the sentinel). -/
theorem eviction_prefers_same_family (s : PeerState) (env : Env) (pth : Path)
    (trust : Bool) (now : Nat) (score : Nat → Nat)
    (huse : env.shouldUsePath = true)
    (hfull : s.numPaths = ZT_MAX_PEER_NETWORK_PATHS)
    (hfresh : ∀ p, p < s.numPaths → s.slotAddr p ≠ pth.address)
    (hbound : ∀ p, p < s.numPaths → score p < U64) :
    (Peer.received s env pth 0 Verb.OK trust now score).1.paths =
      s.paths.set (chooseSlot s pth.address.family score)
        { path := some pth, lastReceive := now } ∧
    (Peer.received s env pth 0 Verb.OK trust now score).1.numPaths = s.numPaths ∧
    chooseSlot s pth.address.family score < ZT_MAX_PEER_NETWORK_PATHS ∧
    ((∃ p, p < s.numPaths ∧ (s.slotAddr p).family = pth.address.family ∧
        score p < U64 - 1) →
      (s.slotAddr (chooseSlot s pth.address.family score)).family = pth.address.family ∧
      ∀ q, q < s.numPaths → (s.slotAddr q).family = pth.address.family →
        score (chooseSlot s pth.address.family score) ≤ score q) ∧
    ((∀ p, p < s.numPaths → (s.slotAddr p).family = pth.address.family →
        ¬score p < U64 - 1) →
      ∀ q, q < s.numPaths → score (chooseSlot s pth.address.family score) ≤ score q) := by
  obtain ⟨hp1, hp2⟩ := received_learn_state s env pth trust now score hfresh huse
  have hfull2 : ¬(stampFrames s Verb.OK now).numPaths < ZT_MAX_PEER_NETWORK_PATHS := by
    show ¬s.numPaths < ZT_MAX_PEER_NETWORK_PATHS
    omega
  obtain ⟨hl1, hl2⟩ :=
    (learnInstall_paths (stampFrames s Verb.OK now) pth now score).2 hfull2
  obtain ⟨hc1, hc2, hc3⟩ := chooseSlot_spec s pth.address.family score hfull hbound
  refine ⟨?_, ?_, hc1, hc2, hc3⟩
  · rw [hp1, hl1]
    rfl
  · rw [hp2, hl2]
    rfl

def wFullPaths : List PathSlot :=
  (List.range 16).map (fun i =>
    { path := some (mkPath (if i % 2 = 0 then 4 else 6) (10 * i) 1), lastReceive := 0 })

def wFullState : PeerState := { wState with paths := wFullPaths, numPaths := 16 }

/-- Witness for C1 (amended): a full mixed-family table with scores `p` (all
below the sentinel); a new v4 path evicts a v4 slot of minimal score. -/
theorem eviction_prefers_same_family_witness :
    (Peer.received wFullState wEnv (mkPath 4 500 1) 0 Verb.OK false 5
      (fun p => p)).1.numPaths = wFullState.numPaths ∧
    (wFullState.slotAddr (chooseSlot wFullState (mkPath 4 500 1).address.family
      (fun p => p))).family = (mkPath 4 500 1).address.family :=
  ⟨(eviction_prefers_same_family wFullState wEnv (mkPath 4 500 1) false 5 (fun p => p)
      rfl (by decide) (by decide) (by decide)).2.1,
   ((eviction_prefers_same_family wFullState wEnv (mkPath 4 500 1) false 5 (fun p => p)
      rfl (by decide) (by decide) (by decide)).2.2.2.1
      ⟨0, by decide, by decide, by decide⟩).1⟩

def cexPaths : List PathSlot :=
  { path := some (mkPath 4 0 1), lastReceive := 0 } ::
    (List.range 15).map (fun i =>
      { path := some (mkPath 6 (10 * i) 1), lastReceive := 0 })

def cexState : PeerState := { wState with paths := cexPaths, numPaths := 16 }

def cexScore : Nat → Nat := fun p => if p = 0 then U64 - 1 else p

/-- Counterexample to C1 as stated: the table is full, slot 0 is the only
v4 slot and it scores the u64 sentinel `2^64 - 1`; a new confirmable v4 path
then evicts slot 1, a v6 slot, even though a v4 slot exists — because the
same-family pass uses strict `<` against a `worstScore` initialized to the
sentinel and therefore never selects a slot scoring exactly `2^64 - 1`. -/
theorem eviction_sentinel_counterexample :
    (Peer.received cexState wEnv (mkPath 4 500 1) 0 Verb.OK false 5 cexScore).1.paths =
      cexState.paths.set 1 { path := some (mkPath 4 500 1), lastReceive := 5 } ∧
    (cexState.slotAddr 0).family = AF_INET ∧
    (cexState.slotAddr 1).family = AF_INET6 ∧
    (mkPath 4 500 1).address.family = AF_INET ∧
    0 < cexState.numPaths ∧
    chooseSlot cexState AF_INET cexScore = 1 := by
  have h1 := (received_learn_state cexState wEnv (mkPath 4 500 1) false 5 cexScore
    (by decide) rfl).1
  have h2 := (learnInstall_paths (stampFrames cexState Verb.OK 5) (mkPath 4 500 1) 5
    cexScore).2 (by decide)
  have h3 : chooseSlot (stampFrames cexState Verb.OK 5) (mkPath 4 500 1).address.family
      cexScore = 1 := by decide
  refine ⟨?_, by decide, by decide, by decide, by decide, by decide⟩
  rw [h1, h2.1, h3]
  rfl

theorem addrList_length (s : PeerState) (hnp : s.numPaths ≤ s.paths.length) :
    (addrList s).length = s.numPaths := by
  unfold addrList
  rw [List.length_map, List.length_take]
  omega

theorem addrList_getD (s : PeerState) (hnp : s.numPaths ≤ s.paths.length)
    (i : Nat) (hi : i < s.numPaths) :
    (addrList s).getD i default = s.slotAddr i := by
  have hil : i < (addrList s).length := by rw [addrList_length s hnp]; exact hi
  have hip : i < s.paths.length := by omega
  have hit : i < (s.paths.take s.numPaths).length := by
    rw [List.length_take]; omega
  rw [List.getD_eq_getElem _ _ hil]
  show ((s.paths.take s.numPaths).map PathSlot.addr)[i] = s.slotAddr i
  rw [List.getElem_map, List.getElem_take]
  show s.paths[i].addr = (s.paths.getD i default).addr
  rw [List.getD_eq_getElem _ _ hip]

theorem mem_addrList (s : PeerState) (hnp : s.numPaths ≤ s.paths.length)
    (a : InetAddress) :
    a ∈ addrList s ↔ ∃ p, p < s.numPaths ∧ s.slotAddr p = a := by
  rw [List.mem_iff_getElem]
  constructor
  · rintro ⟨n, hn, hget⟩
    have hn2 : n < s.numPaths := by rw [addrList_length s hnp] at hn; exact hn
    refine ⟨n, hn2, ?_⟩
    rw [← addrList_getD s hnp n hn2, List.getD_eq_getElem _ _ hn]
    exact hget
  · rintro ⟨p, hp, hap⟩
    have hp2 : p < (addrList s).length := by rw [addrList_length s hnp]; exact hp
    refine ⟨p, hp2, ?_⟩
    rw [← List.getD_eq_getElem (addrList s) default hp2, addrList_getD s hnp p hp]
    exact hap

theorem slotAddr_inj (s : PeerState) (hg : goodTable s) (i j : Nat)
    (hi : i < s.numPaths) (hj : j < s.numPaths)
    (heq : s.slotAddr i = s.slotAddr j) : i = j := by
  obtain ⟨hlen, hnum, hnodup⟩ := hg
  have hnp : s.numPaths ≤ s.paths.length := by omega
  have hi2 : i < (addrList s).length := by rw [addrList_length s hnp]; exact hi
  have hj2 : j < (addrList s).length := by rw [addrList_length s hnp]; exact hj
  have hg1 : (addrList s)[i] = (addrList s)[j] := by
    rw [← List.getD_eq_getElem (addrList s) default hi2,
      ← List.getD_eq_getElem (addrList s) default hj2,
      addrList_getD s hnp i hi, addrList_getD s hnp j hj]
    exact heq
  exact (List.Nodup.getElem_inj_iff hnodup).mp hg1

/-- State effect of `Peer::received` when a direct packet's source address
matches populated slot `p0`: that slot is refreshed in place and the count is
unchanged (the confirm path of lines 122-137). -/
theorem received_confirm_state (s : PeerState) (env : Env) (pth : Path) (verb : Verb)
    (trust : Bool) (now : Nat) (score : Nat → Nat)
    (hg : goodTable s) (p0 : Nat) (hp0 : p0 < s.numPaths)
    (ha : s.slotAddr p0 = pth.address) :
    (Peer.received s env pth 0 verb trust now score).1.paths =
      s.paths.set p0 { path := some pth, lastReceive := now } ∧
    (Peer.received s env pth 0 verb trust now score).1.numPaths = s.numPaths := by
  rcases confirmLoop_spec s.paths pth now 0 s.numPaths with
    ⟨_, _, h3⟩ | ⟨q0, _, hq2, hq3, _, hq5⟩
  · exact absurd ha (h3 p0 (Nat.zero_le p0) hp0)
  · have hq0p0 : q0 = p0 := slotAddr_inj s hg q0 p0 hq2 hp0 (hq3.trans ha.symm)
    subst hq0p0
    unfold Peer.received
    dsimp only
    rw [hq5]
    rw [if_pos (show (0 : Nat) = 0 from rfl)]
    dsimp only
    rw [if_pos (show true = true from rfl)]
    generalize (if verb = Verb.FRAME ∨ verb = Verb.EXT_FRAME then now
      else s.lastUnicastFrame) = uf
    generalize (if verb = Verb.MULTICAST_FRAME then now else s.lastMulticastFrame) = mf
    constructor
    · split
      · rfl
      · rfl
    · split
      · rfl
      · rfl

/-- The pusher never touches the path table or identity material; it can only
advance `lastDirectPathPushSent`. -/
theorem pushDirectPaths_state (s : PeerState) (env : Env) (pth : Path) (now : Nat) :
    (pushDirectPaths s env pth now).1.key = s.key ∧
    (pushDirectPaths s env pth now).1.paths = s.paths ∧
    (pushDirectPaths s env pth now).1.numPaths = s.numPaths := by
  unfold pushDirectPaths
  split
  · exact ⟨rfl, rfl, rfl⟩
  · split
    · exact ⟨rfl, rfl, rfl⟩
    · split
      · exact ⟨rfl, rfl, rfl⟩
      · exact ⟨rfl, rfl, rfl⟩

theorem learnInstall_key (s : PeerState) (pth : Path) (now : Nat) (score : Nat → Nat) :
    (learnInstall s pth now score).key = s.key := by
  unfold learnInstall
  split
  · rfl
  · rfl

/-- `Peer::received` on a fresh address that is not learned (either the policy
rejects the endpoint or the verb is not OK) leaves the table unchanged. -/
theorem received_noop_state (s : PeerState) (env : Env) (pth : Path) (verb : Verb)
    (trust : Bool) (now : Nat) (score : Nat → Nat)
    (hfresh : ∀ p, p < s.numPaths → s.slotAddr p ≠ pth.address)
    (hcase : env.shouldUsePath = false ∨ verb ≠ Verb.OK) :
    (Peer.received s env pth 0 verb trust now score).1.paths = s.paths ∧
    (Peer.received s env pth 0 verb trust now score).1.numPaths = s.numPaths := by
  have hconf : confirmLoop s.paths pth now 0 s.numPaths = (s.paths, false) := by
    rcases confirmLoop_spec s.paths pth now 0 s.numPaths with
      ⟨h1, h2, _⟩ | ⟨q0, _, hq2, hq3, _, _⟩
    · rw [Prod.ext_iff]
      exact ⟨h1, h2⟩
    · exact absurd hq3 (hfresh q0 hq2)
  unfold Peer.received
  dsimp only
  rw [hconf]
  rw [if_pos (show (0 : Nat) = 0 from rfl)]
  dsimp only
  rw [if_neg (show ¬(false = true) from by simp)]
  generalize (if verb = Verb.FRAME ∨ verb = Verb.EXT_FRAME then now
    else s.lastUnicastFrame) = uf
  generalize (if verb = Verb.MULTICAST_FRAME then now else s.lastMulticastFrame) = mf
  rcases hcase with hc | hc
  · rw [if_neg (show ¬(env.shouldUsePath = true) from by
      rw [hc]; exact Bool.false_ne_true)]
    constructor
    · split
      · rfl
      · rfl
    · split
      · rfl
      · rfl
  · by_cases huse : env.shouldUsePath = true
    · rw [if_pos huse, if_neg hc]
      constructor
      · split
        · rfl
        · rfl
      · split
        · rfl
        · rfl
    · rw [if_neg huse]
      constructor
      · split
        · rfl
        · rfl
      · split
        · rfl
        · rfl

/-- Relayed packets (`hops > 0`) never touch the path table. -/
theorem received_relay_state (s : PeerState) (env : Env) (pth : Path) (hops : Nat)
    (verb : Verb) (trust : Bool) (now : Nat) (score : Nat → Nat) (hh : hops ≠ 0) :
    (Peer.received s env pth hops verb trust now score).1.paths = s.paths ∧
    (Peer.received s env pth hops verb trust now score).1.numPaths = s.numPaths := by
  unfold Peer.received
  dsimp only
  rw [if_neg hh]
  generalize (if verb = Verb.FRAME ∨ verb = Verb.EXT_FRAME then now
    else s.lastUnicastFrame) = uf
  generalize (if verb = Verb.MULTICAST_FRAME then now else s.lastMulticastFrame) = mf
  by_cases ht : trust = true
  · rw [if_pos ht]
    constructor
    · split
      · exact (pushDirectPaths_state _ _ _ _).2.1
      · exact (pushDirectPaths_state _ _ _ _).2.1
    · split
      · exact (pushDirectPaths_state _ _ _ _).2.2
      · exact (pushDirectPaths_state _ _ _ _).2.2
  · rw [if_neg ht]
    constructor
    · split
      · rfl
      · rfl
    · split
      · rfl
      · rfl

/-- `Peer::received` never changes the session key. -/
theorem received_key (s : PeerState) (env : Env) (pth : Path) (hops : Nat)
    (verb : Verb) (trust : Bool) (now : Nat) (score : Nat → Nat) :
    (Peer.received s env pth hops verb trust now score).1.key = s.key := by
  unfold Peer.received
  dsimp only
  generalize (if verb = Verb.FRAME ∨ verb = Verb.EXT_FRAME then now
    else s.lastUnicastFrame) = uf
  generalize (if verb = Verb.MULTICAST_FRAME then now else s.lastMulticastFrame) = mf
  repeat
    first
      | rfl
      | exact learnInstall_key _ _ _ _
      | exact (pushDirectPaths_state _ _ _ _).1
      | split

/-- No operation of Peer.cpp changes the session key. -/
theorem step_key (s t : PeerState) (h : Step s t) : t.key = s.key := by
  cases h with
  | recv env pth hops verb trust now score =>
    exact received_key s env pth hops verb trust now score
  | clean now => rfl
  | reset env scope now => rfl
  | push env pth now => exact (pushDirectPaths_state s env pth now).1
  | setVersion vp vM vm vr => rfl

theorem goodTable_initial (k : List Nat) (pa : Nat) : goodTable (initialState k pa) := by
  refine ⟨by simp [initialState], by simp [initialState], ?_⟩
  show (addrList (initialState k pa)).Nodup
  unfold addrList initialState
  simp

theorem addrList_set_list (s : PeerState) (p0 : Nat) (sl : PathSlot)
    (hp0 : p0 < s.numPaths) :
    ((s.paths.set p0 sl).take s.numPaths).map PathSlot.addr =
      (addrList s).set p0 sl.addr := by
  unfold addrList
  rw [take_set_of_lt _ _ _ _ hp0, List.map_set]

theorem addrList_append_list (s : PeerState) (sl : PathSlot)
    (h : s.numPaths < s.paths.length) :
    ((s.paths.set s.numPaths sl).take (s.numPaths + 1)).map PathSlot.addr =
      addrList s ++ [sl.addr] := by
  unfold addrList
  rw [take_succ_set _ _ _ h, List.map_append]
  rfl

/-- The confirm update rewrites a slot with a slot of the same remote
address, so the address list is unchanged. -/
theorem addrList_confirm (s : PeerState) (p0 : Nat) (sl : PathSlot)
    (hp0 : p0 < s.numPaths) (hnp : s.numPaths ≤ s.paths.length)
    (ha : s.slotAddr p0 = sl.addr) :
    ((s.paths.set p0 sl).take s.numPaths).map PathSlot.addr = addrList s := by
  rw [addrList_set_list s p0 sl hp0]
  have hgd : (addrList s).getD p0 default = sl.addr := by
    rw [addrList_getD s hnp p0 hp0]
    exact ha
  rw [← hgd]
  exact set_getD_self _ _ _

/-- Compaction by any retention predicate preserves table health. -/
theorem goodTable_compact (s : PeerState) (keep : PathSlot → Bool)
    (hg : goodTable s) :
    goodTable { s with
      paths := zeroTail (compactLoop s.paths keep s.numPaths 0 0).1
                 (compactLoop s.paths keep s.numPaths 0 0).2,
      numPaths := (compactLoop s.paths keep s.numPaths 0 0).2 } := by
  obtain ⟨hlen, hnum, hnodup⟩ := hg
  have hnp : s.numPaths ≤ s.paths.length := by omega
  obtain ⟨c1, c2, c3, _⟩ :=
    compactLoop_spec s.paths keep s.numPaths 0 0 (Nat.le_refl 0) hnp
  simp only [List.drop_zero, Nat.sub_zero, List.take_zero, List.nil_append,
    Nat.zero_add] at c2 c3
  have hc2 : (compactLoop s.paths keep s.numPaths 0 0).2 ≤ s.numPaths := by
    rw [c2]
    calc (s.paths.take s.numPaths).countP keep
        ≤ (s.paths.take s.numPaths).length := List.countP_le_length _
      _ = s.numPaths := by rw [List.length_take]; omega
  have hc2len : (compactLoop s.paths keep s.numPaths 0 0).2 ≤
      (compactLoop s.paths keep s.numPaths 0 0).1.length := by
    rw [c1]; omega
  refine ⟨?_, ?_, ?_⟩
  · show (zeroTail _ _).length = ZT_MAX_PEER_NETWORK_PATHS
    rw [zeroTail_length, c1, hlen]
  · show (compactLoop s.paths keep s.numPaths 0 0).2 ≤ ZT_MAX_PEER_NETWORK_PATHS
    omega
  · show (addrList _).Nodup
    unfold addrList
    dsimp only
    rw [zeroTail_take _ _ hc2len, c3]
    exact List.Nodup.sublist ((List.filter_sublist _).map PathSlot.addr) hnodup

/-- One receive call preserves table health. -/
theorem goodTable_recv (s : PeerState) (env : Env) (pth : Path) (hops : Nat)
    (verb : Verb) (trust : Bool) (now : Nat) (score : Nat → Nat)
    (hg : goodTable s) :
    goodTable (Peer.received s env pth hops verb trust now score).1 := by
  obtain ⟨hlen, hnum, hnodup⟩ := hg
  have hnp : s.numPaths ≤ s.paths.length := by omega
  by_cases hh : hops = 0
  · subst hh
    by_cases hmatch : ∃ p, p < s.numPaths ∧ s.slotAddr p = pth.address
    · obtain ⟨p0, hp0, ha⟩ := hmatch
      obtain ⟨hpaths, hnum2⟩ := received_confirm_state s env pth verb trust now score
        ⟨hlen, hnum, hnodup⟩ p0 hp0 ha
      refine ⟨?_, ?_, ?_⟩
      · rw [hpaths, List.length_set]
        exact hlen
      · rw [hnum2]
        exact hnum
      · show (addrList _).Nodup
        unfold addrList
        rw [hpaths, hnum2]
        rw [addrList_confirm s p0 { path := some pth, lastReceive := now } hp0 hnp
          (by exact ha)]
        exact hnodup
    · push_neg at hmatch
      have hfresh : ∀ p, p < s.numPaths → s.slotAddr p ≠ pth.address := hmatch
      by_cases hok : env.shouldUsePath = true ∧ verb = Verb.OK
      · obtain ⟨huse, hvOK⟩ := hok
        subst hvOK
        obtain ⟨hp1, hp2⟩ := received_learn_state s env pth trust now score hfresh huse
        by_cases hfull : (stampFrames s Verb.OK now).numPaths < ZT_MAX_PEER_NETWORK_PATHS
        · obtain ⟨hl1, hl2⟩ :=
            (learnInstall_paths (stampFrames s Verb.OK now) pth now score).1 hfull
          have hfull2 : s.numPaths < ZT_MAX_PEER_NETWORK_PATHS := hfull
          have hlenlt : s.numPaths < s.paths.length := by omega
          refine ⟨?_, ?_, ?_⟩
          · rw [hp1, hl1]
            show (s.paths.set s.numPaths _).length = _
            rw [List.length_set]
            exact hlen
          · rw [hp2, hl2]
            show s.numPaths + 1 ≤ _
            omega
          · show (addrList _).Nodup
            unfold addrList
            rw [hp1, hl1, hp2, hl2]
            show (((s.paths.set s.numPaths _).take (s.numPaths + 1)).map PathSlot.addr).Nodup
            rw [addrList_append_list s _ hlenlt]
            rw [List.nodup_append]
            refine ⟨hnodup, List.nodup_singleton _, ?_⟩
            intro x hx hmem
            rw [List.mem_singleton] at hmem
            subst hmem
            obtain ⟨p, hp, hap⟩ := (mem_addrList s hnp _).mp hx
            exact hfresh p hp hap
        · obtain ⟨hl1, hl2⟩ :=
            (learnInstall_paths (stampFrames s Verb.OK now) pth now score).2 hfull
          have hfull2 : ¬s.numPaths < ZT_MAX_PEER_NETWORK_PATHS := hfull
          have hw : chooseSlot s pth.address.family score < ZT_MAX_PEER_NETWORK_PATHS := by
            rcases scanWorst_spec (fun p => (s.slotAddr p).family == pth.address.family)
                score s.numPaths with ⟨w1, _, _⟩ | ⟨w, w1, hwlt, _, _, _, _⟩
            · have hcs : chooseSlot s pth.address.family score =
                  (fallbackScan score s.numPaths).1 := by
                unfold chooseSlot
                rw [w1]
              rcases fallbackScan_spec score s.numPaths with ⟨f1, _, _⟩ | ⟨f1, _, _, _⟩
              · rw [hcs, f1]
                decide
              · rw [hcs]
                omega
            · have hcs : chooseSlot s pth.address.family score = w := by
                unfold chooseSlot
                rw [w1]
              rw [hcs]
              omega
          have hwnum : chooseSlot s pth.address.family score < s.numPaths := by omega
          refine ⟨?_, ?_, ?_⟩
          · rw [hp1, hl1]
            show (s.paths.set _ _).length = _
            rw [List.length_set]
            exact hlen
          · rw [hp2, hl2]
            exact hnum
          · show (addrList _).Nodup
            unfold addrList
            rw [hp1, hl1, hp2, hl2]
            show (((s.paths.set (chooseSlot s pth.address.family score) _).take
              s.numPaths).map PathSlot.addr).Nodup
            rw [addrList_set_list s _ _ hwnum]
            apply nodup_set
            · intro hmem
              obtain ⟨p, hp, hap⟩ := (mem_addrList s hnp _).mp hmem
              exact hfresh p hp hap
            · exact hnodup
      · have hcase : env.shouldUsePath = false ∨ verb ≠ Verb.OK := by
          by_cases hu : env.shouldUsePath = true
          · right
            intro hv
            exact hok ⟨hu, hv⟩
          · left
            cases henv : env.shouldUsePath
            · rfl
            · exact absurd henv hu
        obtain ⟨hp1, hp2⟩ := received_noop_state s env pth verb trust now score hfresh hcase
        refine ⟨by rw [hp1]; exact hlen, by rw [hp2]; exact hnum, ?_⟩
        show (addrList _).Nodup
        unfold addrList
        rw [hp1, hp2]
        exact hnodup
  · obtain ⟨hp1, hp2⟩ := received_relay_state s env pth hops verb trust now score hh
    refine ⟨by rw [hp1]; exact hlen, by rw [hp2]; exact hnum, ?_⟩
    show (addrList _).Nodup
    unfold addrList
    rw [hp1, hp2]
    exact hnodup

theorem goodTable_step (s t : PeerState) (h : Step s t) (hg : goodTable s) :
    goodTable t := by
  cases h with
  | recv env pth hops verb trust now score =>
    exact goodTable_recv s env pth hops verb trust now score hg
  | clean now => exact goodTable_compact s (pathKept now) hg
  | reset env scope now => exact goodTable_compact s (scopeKept env scope) hg
  | push env pth now =>
    obtain ⟨hk, hp1, hp2⟩ := pushDirectPaths_state s env pth now
    obtain ⟨hlen, hnum, hnodup⟩ := hg
    refine ⟨by rw [hp1]; exact hlen, by rw [hp2]; exact hnum, ?_⟩
    show (addrList _).Nodup
    unfold addrList
    rw [hp1, hp2]
    exact hnodup
  | setVersion vp vM vm vr => exact hg

theorem goodTable_reaches (s t : PeerState) (h : Reaches s t) (hg : goodTable s) :
    goodTable t := by
  induction h with
  | refl => exact hg
  | tail h1 h2 ih => exact goodTable_step _ _ h2 ih

theorem chooseSlot_lt_full (s : PeerState) (fam : Nat) (score : Nat → Nat)
    (hfull : s.numPaths = ZT_MAX_PEER_NETWORK_PATHS) :
    chooseSlot s fam score < s.numPaths := by
  rcases scanWorst_spec (fun p => (s.slotAddr p).family == fam) score s.numPaths with
    ⟨w1, _, _⟩ | ⟨w, w1, hwlt, _, _, _, _⟩
  · have hcs : chooseSlot s fam score = (fallbackScan score s.numPaths).1 := by
      unfold chooseSlot
      rw [w1]
    rcases fallbackScan_spec score s.numPaths with ⟨f1, _, _⟩ | ⟨f1, _, _, _⟩
    · rw [hcs, f1, hfull]
      decide
    · rw [hcs]
      omega
  · have hcs : chooseSlot s fam score = w := by
      unfold chooseSlot
      rw [w1]
    rw [hcs]
    exact hwlt

/-- After a direct permitted OK receive, the packet's source address occupies
exactly one populated slot, and that slot holds the new `Path` with
`lastReceive = now`. -/
theorem count_after_ok (s : PeerState) (env : Env) (pth : Path) (trust : Bool)
    (t1 : Nat) (score : Nat → Nat) (hg : goodTable s)
    (huse : env.shouldUsePath = true) :
    List.count pth.address
      (addrList (Peer.received s env pth 0 Verb.OK trust t1 score).1) = 1 ∧
    ∃ p, p < (Peer.received s env pth 0 Verb.OK trust t1 score).1.numPaths ∧
      (Peer.received s env pth 0 Verb.OK trust t1 score).1.paths.getD p default =
        { path := some pth, lastReceive := t1 } := by
  obtain ⟨hlen, hnum, hnodup⟩ := hg
  have hnp : s.numPaths ≤ s.paths.length := by omega
  by_cases hmatch : ∃ p, p < s.numPaths ∧ s.slotAddr p = pth.address
  · obtain ⟨p0, hp0, ha⟩ := hmatch
    obtain ⟨hpaths, hnum2⟩ := received_confirm_state s env pth Verb.OK trust t1 score
      ⟨hlen, hnum, hnodup⟩ p0 hp0 ha
    have haddr : addrList (Peer.received s env pth 0 Verb.OK trust t1 score).1 =
        addrList s := by
      unfold addrList
      rw [hpaths, hnum2]
      exact addrList_confirm s p0 { path := some pth, lastReceive := t1 } hp0 hnp
        (by exact ha)
    constructor
    · rw [haddr]
      exact List.count_eq_one_of_mem hnodup ((mem_addrList s hnp _).mpr ⟨p0, hp0, ha⟩)
    · refine ⟨p0, by rw [hnum2]; exact hp0, ?_⟩
      rw [hpaths]
      exact getD_set_self _ _ _ _ (by omega)
  · push_neg at hmatch
    obtain ⟨hp1, hp2⟩ := received_learn_state s env pth trust t1 score hmatch huse
    have hnotmem : pth.address ∉ addrList s := by
      intro hmem
      obtain ⟨p, hp, hap⟩ := (mem_addrList s hnp _).mp hmem
      exact hmatch p hp hap
    by_cases hfull : (stampFrames s Verb.OK t1).numPaths < ZT_MAX_PEER_NETWORK_PATHS
    · obtain ⟨hl1, hl2⟩ :=
        (learnInstall_paths (stampFrames s Verb.OK t1) pth t1 score).1 hfull
      have hfull2 : s.numPaths < ZT_MAX_PEER_NETWORK_PATHS := hfull
      have hlenlt : s.numPaths < s.paths.length := by omega
      have hconv1 : (Peer.received s env pth 0 Verb.OK trust t1 score).1.paths =
          s.paths.set s.numPaths { path := some pth, lastReceive := t1 } := by
        rw [hp1, hl1]
        rfl
      have hconv2 : (Peer.received s env pth 0 Verb.OK trust t1 score).1.numPaths =
          s.numPaths + 1 := by
        rw [hp2, hl2]
        rfl
      constructor
      · have haddr : addrList (Peer.received s env pth 0 Verb.OK trust t1 score).1 =
            addrList s ++ [pth.address] := by
          unfold addrList
          rw [hconv1, hconv2]
          exact addrList_append_list s { path := some pth, lastReceive := t1 } hlenlt
        rw [haddr, List.count_append, List.count_eq_zero.mpr hnotmem]
        simp
      · refine ⟨s.numPaths, by rw [hconv2]; omega, ?_⟩
        rw [hconv1]
        exact getD_set_self _ _ _ _ hlenlt
    · obtain ⟨hl1, hl2⟩ :=
        (learnInstall_paths (stampFrames s Verb.OK t1) pth t1 score).2 hfull
      have hfull2 : s.numPaths = ZT_MAX_PEER_NETWORK_PATHS := by
        have h16 : ¬s.numPaths < ZT_MAX_PEER_NETWORK_PATHS := hfull
        omega
      have hw : chooseSlot s pth.address.family score < s.numPaths :=
        chooseSlot_lt_full s pth.address.family score hfull2
      have hconv1 : (Peer.received s env pth 0 Verb.OK trust t1 score).1.paths =
          s.paths.set (chooseSlot s pth.address.family score)
            { path := some pth, lastReceive := t1 } := by
        rw [hp1, hl1]
        rfl
      have hconv2 : (Peer.received s env pth 0 Verb.OK trust t1 score).1.numPaths =
          s.numPaths := by
        rw [hp2, hl2]
        rfl
      constructor
      · have haddr : addrList (Peer.received s env pth 0 Verb.OK trust t1 score).1 =
            (addrList s).set (chooseSlot s pth.address.family score) pth.address := by
          unfold addrList
          rw [hconv1, hconv2]
          exact addrList_set_list s _ { path := some pth, lastReceive := t1 } hw
        rw [haddr]
        apply count_set_self
        · rw [addrList_length s hnp]
          exact hw
        · exact hnotmem
      · refine ⟨chooseSlot s pth.address.family score, by rw [hconv2]; exact hw, ?_⟩
        rw [hconv1]
        exact getD_set_self _ _ _ _ (by omega)

/-- C8: construction fails, surfacing the fatal error, exactly when key
agreement fails; a successful construction stores the agreed key; and no
subsequent operation of Peer.cpp ever changes the key. -/
theorem construct_requires_key_agreement :
    (∀ a, Peer.construct none a =
      Except.error "new peer identity key agreement failed") ∧
    (∀ k a, Peer.construct (some k) a = Except.ok (initialState k a)) ∧
    (∀ k a, (initialState k a).key = k) ∧
    (∀ r a st, Peer.construct r a = Except.ok st → r = some st.key) ∧
    (∀ s t, Step s t → t.key = s.key) ∧
    (∀ s t, Reaches s t → t.key = s.key) := by
  refine ⟨fun a => rfl, fun k a => rfl, fun k a => rfl, ?_, step_key, ?_⟩
  · intro r a st h
    cases r with
    | none => exact absurd h (by simp [Peer.construct])
    | some k =>
      have h2 : initialState k a = st := by
        have h3 : (Except.ok (initialState k a) : Except String PeerState) =
            Except.ok st := h
        exact Except.ok.inj h3
      rw [← h2]
      rfl
  · intro s t h
    induction h with
    | refl => rfl
    | tail h1 h2 ih => exact (step_key _ _ h2).trans ih

/-- Witness for C8: a concrete failed and a concrete successful construction,
and a `clean` step that leaves the key untouched. -/
theorem construct_requires_key_agreement_witness :
    Peer.construct none 3 =
      Except.error "new peer identity key agreement failed" ∧
    Peer.construct (some [5]) 3 = Except.ok (initialState [5] 3) ∧
    (initialState [5] 3).key = [5] ∧
    (Peer.clean (initialState [5] 3) 99).key = (initialState [5] 3).key :=
  ⟨construct_requires_key_agreement.1 3,
   construct_requires_key_agreement.2.1 [5] 3,
   construct_requires_key_agreement.2.2.1 [5] 3,
   construct_requires_key_agreement.2.2.2.2.1 _ _ (Step.clean (initialState [5] 3) 99)⟩

/-- C2: in every reachable state no two populated slots share a remote
address; when a direct packet arrives whose address matches populated slot
`p0`, that slot's `lastReceive` is refreshed and its `Path` reference
replaced with no new slot inserted; and two back-to-back direct receives on
one address (the first a permitted OK) leave exactly one slot holding that
address, carrying the later `lastReceive`. -/
theorem reachable_unique_addresses (k : List Nat) (pa : Nat) (s : PeerState)
    (hreach : Reaches (initialState k pa) s) :
    (addrList s).Nodup ∧
    (∀ env pth verb trust now score p0, p0 < s.numPaths →
      s.slotAddr p0 = pth.address →
      (Peer.received s env pth 0 verb trust now score).1.paths =
        s.paths.set p0 { path := some pth, lastReceive := now } ∧
      (Peer.received s env pth 0 verb trust now score).1.numPaths = s.numPaths) ∧
    (∀ env1 env2 pth1 pth2 verb2 trust1 trust2 t1 t2 sc1 sc2,
      env1.shouldUsePath = true → pth2.address = pth1.address →
      (Peer.received (Peer.received s env1 pth1 0 Verb.OK trust1 t1 sc1).1 env2 pth2 0
        verb2 trust2 t2 sc2).1.numPaths =
        (Peer.received s env1 pth1 0 Verb.OK trust1 t1 sc1).1.numPaths ∧
      List.count pth2.address
        (addrList (Peer.received (Peer.received s env1 pth1 0 Verb.OK trust1 t1 sc1).1
          env2 pth2 0 verb2 trust2 t2 sc2).1) = 1 ∧
      ∃ p, p < (Peer.received (Peer.received s env1 pth1 0 Verb.OK trust1 t1 sc1).1 env2
          pth2 0 verb2 trust2 t2 sc2).1.numPaths ∧
        (Peer.received (Peer.received s env1 pth1 0 Verb.OK trust1 t1 sc1).1 env2 pth2 0
          verb2 trust2 t2 sc2).1.paths.getD p default =
          { path := some pth2, lastReceive := t2 }) := by
  have hg : goodTable s := goodTable_reaches _ _ hreach (goodTable_initial k pa)
  refine ⟨hg.2.2, ?_, ?_⟩
  · intro env pth verb trust now score p0 hp0 ha
    exact received_confirm_state s env pth verb trust now score hg p0 hp0 ha
  · intro env1 env2 pth1 pth2 verb2 trust1 trust2 t1 t2 sc1 sc2 huse haddr2
    have hg1 : goodTable (Peer.received s env1 pth1 0 Verb.OK trust1 t1 sc1).1 :=
      goodTable_recv s env1 pth1 0 Verb.OK trust1 t1 sc1 hg
    obtain ⟨hcount1, p1, hp1lt, hp1slot⟩ :=
      count_after_ok s env1 pth1 trust1 t1 sc1 hg huse
    set s1 := (Peer.received s env1 pth1 0 Verb.OK trust1 t1 sc1).1 with hs1
    have hnp1 : s1.numPaths ≤ s1.paths.length := by
      obtain ⟨hl, hn, _⟩ := hg1
      omega
    have hmem : pth2.address ∈ addrList s1 := by
      rw [haddr2]
      have hpos : 0 < List.count pth1.address (addrList s1) := by
        rw [hcount1]
        omega
      exact List.count_pos_iff.mp hpos
    obtain ⟨p0, hp0, hap0⟩ := (mem_addrList s1 hnp1 _).mp hmem
    obtain ⟨hpaths2, hnum2⟩ :=
      received_confirm_state s1 env2 pth2 verb2 trust2 t2 sc2 hg1 p0 hp0 hap0
    refine ⟨hnum2, ?_, ?_⟩
    · have haddrlist :
          addrList (Peer.received s1 env2 pth2 0 verb2 trust2 t2 sc2).1 = addrList s1 := by
        unfold addrList
        rw [hpaths2, hnum2]
        exact addrList_confirm s1 p0 { path := some pth2, lastReceive := t2 } hp0 hnp1
          (by exact hap0)
      rw [haddrlist, haddr2]
      exact hcount1
    · refine ⟨p0, by rw [hnum2]; exact hp0, ?_⟩
      rw [hpaths2]
      exact getD_set_self _ _ _ _ (by omega)

/-- Witness for C2: starting from a freshly constructed peer, learning one
address via OK and then receiving a FRAME on the same address leaves one slot
with the later stamp. -/
theorem reachable_unique_addresses_witness :
    (addrList (initialState [1] 2)).Nodup ∧
    (Peer.received (Peer.received (initialState [1] 2) wEnv (mkPath 4 1 9993) 0 Verb.OK
      false 5 (fun p => p)).1 wEnv (mkPath 4 1 9993) 0 Verb.FRAME false 9
      (fun p => p)).1.numPaths =
      (Peer.received (initialState [1] 2) wEnv (mkPath 4 1 9993) 0 Verb.OK false 5
        (fun p => p)).1.numPaths ∧
    List.count (mkPath 4 1 9993).address
      (addrList (Peer.received (Peer.received (initialState [1] 2) wEnv (mkPath 4 1 9993)
        0 Verb.OK false 5 (fun p => p)).1 wEnv (mkPath 4 1 9993) 0 Verb.FRAME false 9
        (fun p => p)).1) = 1 :=
  ⟨(reachable_unique_addresses [1] 2 (initialState [1] 2) Relation.ReflTransGen.refl).1,
   ((reachable_unique_addresses [1] 2 (initialState [1] 2)
      Relation.ReflTransGen.refl).2.2 wEnv wEnv (mkPath 4 1 9993) (mkPath 4 1 9993)
      Verb.FRAME false false 5 9 (fun p => p) (fun p => p) rfl rfl).1,
   ((reachable_unique_addresses [1] 2 (initialState [1] 2)
      Relation.ReflTransGen.refl).2.2 wEnv wEnv (mkPath 4 1 9993) (mkPath 4 1 9993)
      Verb.FRAME false false 5 9 (fun p => p) (fun p => p) rfl rfl).2.1⟩
